import Mathlib

/-!
Verification development for the Email-Attachment-Extractor repository.

The core pipeline lives in `src/core/outlook_manager.py` (provider parsing and
matching, message filtering, attachment classification, and
`save_attachments`) and `src/utils/email_processor.py` (a second provider
parser and matcher).  Python strings are modelled as `List Char`; Python
`datetime` values as a calendar-day ordinal plus a time-of-day, which models
naive datetime comparison, `.date()` and `timedelta(days=...)` subtraction
exactly.  The Outlook COM collaborator (folder lookup, message re-location,
`SaveAsFile`, `os.makedirs`) is modelled by explicit outcome parameters; the
filesystem contents of the output directory are modelled as the list of
filenames it holds.
-/

namespace EmailExtractor

/-- Python strings, modelled as lists of characters. -/
abbrev Str := List Char

/-- Coerce a Lean string literal to the `List Char` model. -/
def str (s : String) : Str := s.data

/-- Python `str.lower` (ASCII model). -/
def plower (s : Str) : Str := s.map Char.toLower

/-- Whitespace characters recognised by Python `str.strip` (ASCII model). -/
def isPyWS (c : Char) : Bool :=
  c = ' ' || c = '\t' || c = '\n' || c = '\r' || c = '\x0b' || c = '\x0c'

/-- Python `str.strip()`: drop whitespace from both ends. -/
def pstrip (s : Str) : Str :=
  ((s.dropWhile isPyWS).reverse.dropWhile isPyWS).reverse

/-- Python substring test `needle in hay`. -/
def pyIn (needle : Str) (hay : Str) : Bool :=
  match hay with
  | [] => needle.isEmpty
  | _ :: rest => needle.isPrefixOf hay || pyIn needle rest

/-- Python `s.split(c)` for a one-character separator. -/
def splitOnChar (c : Char) : Str → List Str
  | [] => [[]]
  | x :: xs =>
    let r := splitOnChar c xs
    if x = c then [] :: r
    else
      match r with
      | [] => [[x]]
      | h :: t => (x :: h) :: t

/-- Python `s.split(c, 1)`: split at the first occurrence of `c`
(the caller guarantees `c` occurs). -/
def splitFirst (c : Char) : Str → Str × Str
  | [] => ([], [])
  | x :: xs =>
    if x = c then ([], xs)
    else
      let r := splitFirst c xs
      (x :: r.1, r.2)

/-- Index of the last `'.'` in a character list, if any. -/
def lastDotIdx : Str → Option Nat
  | [] => none
  | c :: cs =>
    match lastDotIdx cs with
    | some i => some (i + 1)
    | none => if c = '.' then some 0 else none

/-- Python `os.path.splitext` for a plain filename (no directory separators):
split at the last dot, provided some character strictly before it is not a
dot; otherwise the extension is empty. -/
def splitext (s : Str) : Str × Str :=
  match lastDotIdx s with
  | none => (s, [])
  | some i =>
    if (s.take i).any (fun c => c ≠ '.') then (s.take i, s.drop i)
    else (s, [])

/-- Decimal rendering of a natural number. -/
def natStr (n : Nat) : Str := (Nat.repr n).data

/-- Left-pad with `'0'` to width `k` (as Python `%0kd`). -/
def padZeros (k : Nat) (s : Str) : Str := List.replicate (k - s.length) '0' ++ s

/-- `os.path.join save_folder filename` for a folder path with no trailing
separator. -/
def pjoin (folder fname : Str) : Str := folder ++ '/' :: fname

/-- Python `dict` assignment `m[k] = v` on an insertion-ordered association
list: overwrite in place if the key is present, else append. -/
def dinsert {β : Type} (m : List (Str × β)) (k : Str) (v : β) : List (Str × β) :=
  match m with
  | [] => [(k, v)]
  | p :: rest => if p.1 = k then (k, v) :: rest else p :: dinsert rest k v

/-- A naive Python `datetime`: `date` is the proleptic-Gregorian day ordinal
(1970-01-01 = day 0) returned by `.date()`, and `tod` the time of day in
seconds.  Comparison of datetimes is lexicographic; `timedelta(days=d)`
subtraction shifts `date` by `d` and keeps `tod`. -/
structure PyDateTime where
  date : Int
  tod : Nat
deriving DecidableEq

instance : Inhabited PyDateTime := ⟨⟨0, 0⟩⟩

/-- Python `datetime` ordering `a <= b` (lexicographic on date, then time). -/
def dtLe (a b : PyDateTime) : Bool :=
  if a.date = b.date then a.tod ≤ b.tod else a.date < b.date

/-- Python `t - timedelta(days=d)` for a naive datetime. -/
def pySubDays (t : PyDateTime) (d : Nat) : PyDateTime := ⟨t.date - d, t.tod⟩

/-- Civil date (year, month, day) from a day ordinal with epoch 1970-01-01
(standard proleptic-Gregorian conversion). -/
def civilFromDays (z0 : Int) : Int × Nat × Nat :=
  let z := z0 + 719468
  let era : Int := Int.fdiv z 146097
  let doe : Nat := (z - era * 146097).toNat
  let yoe : Nat := (doe - doe / 1460 + doe / 36524 - doe / 146096) / 365
  let y : Int := (yoe : Int) + era * 400
  let doy : Nat := doe - (365 * yoe + yoe / 4 - yoe / 100)
  let mp : Nat := (5 * doy + 2) / 153
  let d : Nat := doy - (153 * mp + 2) / 5 + 1
  let m : Nat := if mp < 10 then mp + 3 else mp - 9
  (if m ≤ 2 then y + 1 else y, m, d)

/-- Python `t.strftime("%Y-%m-%d")`. -/
def strfDate (t : PyDateTime) : Str :=
  let c := civilFromDays t.date
  padZeros 4 (natStr c.1.toNat) ++ '-' :: (padZeros 2 (natStr c.2.1) ++ '-' :: padZeros 2 (natStr c.2.2))

/-- Python `t.strftime("%Y")`. -/
def strfYear (t : PyDateTime) : Str :=
  padZeros 4 (natStr (civilFromDays t.date).1.toNat)

/-- A raw Outlook attachment descriptor: its COM `Type` tag (1 = `olByValue`,
a stored file) and its `FileName` (`[]` models a missing/empty name). -/
structure RawAttachment where
  attType : Nat
  fileName : Str
deriving DecidableEq

/-- A raw message as the mail-client collaborator yields it inside
`get_messages_from_folders`: the subject, the extracted lower-cased sender
SMTP address (`[]` when none of the extraction fallbacks finds one,
lines 160-196), the `ReceivedTime` (`none` when unusable), and the raw
attachment descriptors. -/
structure RawMessage where
  subject : Str
  senderEmail : Str
  receivedTime : Option PyDateTime
  rawAttachments : List RawAttachment
deriving DecidableEq

/-- The `EmailMessage` dataclass of `outlook_manager.py`, extended with
`rawAttachments`: the attachment descriptors of the Outlook message object
that `save_attachments` re-locates (lines 547-560) and iterates at line 571.
The re-location collaborator is modelled as succeeding. -/
structure EmailMessage where
  subject : Str
  sender : Str
  receivedTime : PyDateTime
  body : Str
  attachments : List Str
  folderName : Str
  providerName : Str
  rawAttachments : List RawAttachment

/-- `OutlookManager._parse_provider_settings` (lines 116-152): lower-cases the
trimmed pattern, keeps the label verbatim, and skips lines whose pattern or
label is empty, lines without `'='`, comments and blanks.  The early return
for blank text (line 120) is kept. -/
def parseProviderSettings (providersText : Str) : List (Str × Str) :=
  if providersText.isEmpty || (pstrip providersText).isEmpty then []
  else
    (splitOnChar '\n' providersText).foldl
      (fun providers line0 =>
        let line := pstrip line0
        if line.isEmpty || (str "#").isPrefixOf line then providers
        else if pyIn (str "=") line then
          let kv := splitFirst '=' line
          let email := plower (pstrip kv.1)
          let provider := pstrip kv.2
          if !email.isEmpty && !provider.isEmpty then dinsert providers email provider
          else providers
        else providers)
      []

/-- `EmailProcessor._parse_providers_config` (lines 22-33): keeps the trimmed
pattern verbatim (no lower-casing) and accepts empty patterns and labels. -/
def parseProvidersConfigEP (configText : Str) : List (Str × Str) :=
  (splitOnChar '\n' configText).foldl
    (fun providers line0 =>
      let line := pstrip line0
      if !line.isEmpty && !(str "#").isPrefixOf line then
        if pyIn (str "=") line then
          let kv := splitFirst '=' line
          dinsert providers (pstrip kv.1) (pstrip kv.2)
        else providers
      else providers)
    []

/-- The per-rule test of `_should_include_message` line 204:
`configured_email in sender_email or sender_email in configured_email`. -/
def ruleMatches (senderEmail : Str) (rule : Str × Str) : Bool :=
  pyIn rule.1 senderEmail || pyIn senderEmail rule.1

/-- `OutlookManager._should_include_message` (lines 154-212), after the COM
sender extraction: empty rule table includes everything with an empty label;
an undetermined sender (modelled `[]`) is included with an empty label
(line 198-200); otherwise the first rule matching the sender wins
(lines 202-206), and no match excludes the message (line 208). -/
def shouldIncludeMessage (providers : List (Str × Str)) (senderEmail : Str) : Bool × Str :=
  if providers.isEmpty then (true, [])
  else if senderEmail.isEmpty then (true, [])
  else
    match providers.find? (fun r => ruleMatches senderEmail r) with
    | some r => (true, r.2)
    | none => (false, [])

/-- `EmailProcessor.identify_provider` (lines 47-63): patterns containing `@`
are matched against the lower-cased sender, other patterns against the
lower-cased subject; an unmatched message falls back to a domain-derived or
generic label (it is never excluded). -/
def identifyProvider (providers : List (Str × Str)) (sender subject : Str) : Str :=
  match providers.find?
      (fun r =>
        if pyIn (str "@") r.1 then pyIn (plower r.1) (plower sender)
        else pyIn (plower r.1) (plower subject)) with
  | some r => r.2
  | none =>
    if pyIn (str "@") sender then
      str "Provider (" ++ (splitOnChar '@' sender).getLastD [] ++ str ")"
    else str "Unknown Provider"

/-- The inline-content denylist of lines 429-433 and 587-591. -/
def skipPatterns : List Str :=
  [str "image001", str "image002", str "image003", str "image004", str "image005",
   str "outlook-logo", str "brandimage", str "coverimage", str "openlinkicon",
   str "signature", str "logo", str "banner"]

/-- The document-extension allow-list of lines 439-440 and 598-599. -/
def docExtensions : List Str :=
  [str ".pdf", str ".doc", str ".docx", str ".xls", str ".xlsx", str ".ppt",
   str ".pptx", str ".txt", str ".csv", str ".zip", str ".rar", str ".7z",
   str ".xml", str ".json"]

/-- Line 435 / line 593: the filename (case-insensitively) contains one of the
denylist substrings. -/
def isDeniedName (fname : Str) : Bool :=
  skipPatterns.any (fun p => pyIn p (plower fname))

/-- The attachment classifier (lines 419-444, identical at 574-604): reject
non-`olByValue` attachments, empty filenames, denylisted names, and
extensions outside the allow-list; otherwise yield the filename. -/
def classifyAttachment (a : RawAttachment) : Option Str :=
  if a.attType ≠ 1 then none
  else if a.fileName.isEmpty then none
  else if isDeniedName a.fileName then none
  else if docExtensions.contains (plower (splitext a.fileName).2) then some a.fileName
  else none

/-- The date check of lines 396-403: pass only messages with a usable
`ReceivedTime` whose date is not before `start_date.date()`. -/
def passesDateCheck (received : Option PyDateTime) (startDate : PyDateTime) : Bool :=
  match received with
  | some t => if t.date < startDate.date then false else true
  | none => false

/-- One message-filter step of `get_messages_from_folders` (lines 392-414):
date window, then keyword, then provider check; yields the resolved provider
label for accepted messages.  `startDate` is `datetime.now() -
timedelta(days=days_back)` from line 357. -/
def acceptMessage (providers : List (Str × Str)) (startDate : PyDateTime)
    (keyword : Str) (m : RawMessage) : Option Str :=
  if !passesDateCheck m.receivedTime startDate then none
  else if !keyword.isEmpty && !pyIn (plower keyword) (plower m.subject) then none
  else
    let r := shouldIncludeMessage providers m.senderEmail
    if r.1 then some r.2 else none

/-- The collaborator outcomes and configuration passed to `save_attachments`.
`mkdirOk` models whether `os.makedirs(save_folder, exist_ok=True)` (line 522)
succeeds; when it raises, the outer handler (lines 685-687) returns `{}`.
`saveOk` models the outcome of `attachment.SaveAsFile` (line 654) per final
filename.  The optional file-format conversion (lines 656-668) is the
excluded conversion collaborator and is not modelled (on failure the original
path is kept, which coincides with the unmodelled case). -/
structure SaveConfig where
  saveFolder : Str
  fileNamingFormat : Str
  customSuffix : Str
  extractionMode : Str
  mkdirOk : Bool
  saveOk : Str → Bool

/-- The mutable state of one `save_attachments` run: the `saved_files` dict,
the `latest_files` dict of latest mode, and the output directory's contents
(filenames whose path `os.path.exists` reports, line 644; files written by
`SaveAsFile` this run are included as they are written). -/
structure SaveState where
  savedFiles : List (Str × Str)
  latestFiles : List (Str × PyDateTime)
  disk : List Str

/-- The latest-mode key of lines 608-609: the stem up to its first underscore
(or the whole stem), concatenated with the extension, lower-cased. -/
def fileKeyOf (fname : Str) : Str :=
  let ne := splitext fname
  let baseName := if ne.1.contains '_' then ne.1.takeWhile (fun c => c ≠ '_') else ne.1
  plower (baseName ++ ne.2)

/-- The per-message suffix token of lines 563-568: the received date for
`date`, the year for `year`, otherwise the custom suffix or the literal
`custom`. -/
def namingSuffix (cfg : SaveConfig) (t : PyDateTime) : Str :=
  if cfg.fileNamingFormat = str "date" then strfDate t
  else if cfg.fileNamingFormat = str "year" then strfYear t
  else if !cfg.customSuffix.isEmpty then cfg.customSuffix
  else str "custom"

/-- The filename computation of lines 621-638, before collision handling. -/
def baseFilename (cfg : SaveConfig) (providerPfx suffix originalName ext : Str) : Str :=
  if cfg.extractionMode = str "latest" then
    if cfg.fileNamingFormat = str "year" then providerPfx ++ suffix ++ ext
    else if cfg.fileNamingFormat = str "date" then providerPfx ++ suffix ++ ext
    else providerPfx ++ '_' :: originalName
  else
    if cfg.fileNamingFormat = str "original" then providerPfx ++ '_' :: originalName
    else if cfg.fileNamingFormat = str "year" then providerPfx ++ suffix ++ ext
    else if cfg.fileNamingFormat = str "date" then providerPfx ++ suffix ++ ext
    else providerPfx ++ cfg.customSuffix ++ ext

/-- One renaming step of the collision loop (lines 645-646): split the current
candidate and insert `_counter` before its extension. -/
def nextCand (fname : Str) (counter : Nat) : Str :=
  let ne := splitext fname
  ne.1 ++ '_' :: (natStr counter ++ ne.2)

/-- The `while os.path.exists(full_path)` loop of lines 641-648, with explicit
fuel (the loop terminates because each renaming strictly lengthens the
candidate; `save_attachments` passes fuel `disk.length + 1`, which suffices,
see `resolveCollision_spec`). -/
def resolveCollision (disk : List Str) (fname : Str) (counter : Nat) : Nat → Str
  | 0 => fname
  | fuel + 1 =>
    if disk.contains fname then resolveCollision disk (nextCand fname counter) (counter + 1) fuel
    else fname

/-- The sequence of candidate names the collision loop tries: the original
name, then with `_1` inserted, then additionally `_2`, and so on
(suffixes accumulate). -/
def candSeq (fname : Str) (counter : Nat) : Nat → Str
  | 0 => fname
  | n + 1 => candSeq (nextCand fname counter) (counter + 1) n

/-- The final filename for one attachment (lines 619-648): provider prefix
(literal `unknown` for an empty label, line 619), naming-format body, and, in
`all` mode only, the collision loop against the current directory contents. -/
def finalFilename (cfg : SaveConfig) (disk : List Str) (msg : EmailMessage)
    (originalName ext : Str) : Str :=
  let providerPfx := if !msg.providerName.isEmpty then msg.providerName else str "unknown"
  let suffix := namingSuffix cfg msg.receivedTime
  let base := baseFilename cfg providerPfx suffix originalName ext
  if cfg.extractionMode = str "latest" then base
  else resolveCollision disk base 1 (disk.length + 1)

/-- The body of the attachment loop after the classification guards
(lines 606-670): latest-mode dedup against `latest_files`, filename
computation, save, and recording.  On a failed save the per-attachment
handler (lines 675-677) skips the attachment; the `latest_files` claim made
at line 616 is kept, as in the source. -/
def processEligible (cfg : SaveConfig) (msg : EmailMessage) (st : SaveState)
    (a : RawAttachment) : SaveState :=
  let proceed : Bool × List (Str × PyDateTime) :=
    if cfg.extractionMode = str "latest" then
      let fileKey := fileKeyOf a.fileName
      if (st.latestFiles.map Prod.fst).contains fileKey then (false, st.latestFiles)
      else (true, dinsert st.latestFiles fileKey msg.receivedTime)
    else (true, st.latestFiles)
  if !proceed.1 then st
  else
    let fname := finalFilename cfg st.disk msg a.fileName (splitext a.fileName).2
    let path := pjoin cfg.saveFolder fname
    if cfg.saveOk fname then
      { savedFiles := dinsert st.savedFiles fname path
        latestFiles := proceed.2
        disk := if st.disk.contains fname then st.disk else fname :: st.disk }
    else { st with latestFiles := proceed.2 }

/-- One iteration of the attachment loop (lines 571-677): the classification
guards of lines 574-604 followed by `processEligible`. -/
def processAttachment (cfg : SaveConfig) (msg : EmailMessage) (st : SaveState)
    (a : RawAttachment) : SaveState :=
  if a.attType ≠ 1 then st
  else if a.fileName.isEmpty then st
  else if isDeniedName a.fileName then st
  else if !docExtensions.contains (plower (splitext a.fileName).2) then st
  else processEligible cfg msg st a

/-- One iteration of the message loop (lines 528-681): messages with no
classified attachments are skipped (lines 530-531); the folder and message
re-location collaborator (lines 533-560) is modelled as succeeding. -/
def processMessage (cfg : SaveConfig) (st : SaveState) (msg : EmailMessage) : SaveState :=
  if msg.attachments.isEmpty then st
  else msg.rawAttachments.foldl (processAttachment cfg msg) st

/-- The latest-mode pre-sort of lines 525-526: stable sort by received time,
newest first (Python `sorted(..., reverse=True)`). -/
def sortByReceivedDesc (msgs : List EmailMessage) : List EmailMessage :=
  msgs.mergeSort (fun a b => dtLe b.receivedTime a.receivedTime)

/-- The whole message/attachment loop of `save_attachments` (lines 524-681),
starting from an empty `saved_files` and `latest_files` and the given output
directory contents. -/
def saveRun (cfg : SaveConfig) (disk0 : List Str) (messages : List EmailMessage) : SaveState :=
  let msgs :=
    if cfg.extractionMode = str "latest" then sortByReceivedDesc messages else messages
  msgs.foldl (processMessage cfg) ⟨[], [], disk0⟩

/-- `OutlookManager.save_attachments` (lines 497-689): returns the
`saved_files` mapping; an empty save folder (lines 507-509) or a failing
`os.makedirs` (line 522, caught by the outer handler at lines 685-687)
yields the empty mapping. -/
def save_attachments (cfg : SaveConfig) (disk0 : List Str)
    (messages : List EmailMessage) : List (Str × Str) :=
  if cfg.saveFolder.isEmpty then []
  else if !cfg.mkdirOk then []
  else (saveRun cfg disk0 messages).savedFiles

/-- A provider-configuration line on which the two parser implementations can
agree: whenever it is meaningful (non-blank after trimming, not a comment,
and containing `=`), its trimmed pattern is unchanged by lower-casing and its
trimmed pattern and label are both non-empty. -/
def goodLine (line0 : Str) : Prop :=
  pstrip line0 ≠ [] →
    ¬((str "#").isPrefixOf (pstrip line0) = true) →
    pyIn (str "=") (pstrip line0) = true →
    (plower (pstrip (splitFirst '=' (pstrip line0)).1)
        = pstrip (splitFirst '=' (pstrip line0)).1
      ∧ pstrip (splitFirst '=' (pstrip line0)).1 ≠ []
      ∧ pstrip (splitFirst '=' (pstrip line0)).2 ≠ [])

instance (line0 : Str) : Decidable (goodLine line0) := by
  unfold goodLine
  infer_instance

/-- The message owns some attachment that passes classification and carries
the given latest-mode `(base name + extension)` key. -/
def hasEligibleKey (m : EmailMessage) (k : Str) : Prop :=
  ∃ a ∈ m.rawAttachments, (classifyAttachment a).isSome = true ∧ fileKeyOf a.fileName = k

/-! ### Concrete example inputs used by witnesses and counterexamples -/

/-- An `all`-mode configuration with `original` naming, output folder `out`,
a succeeding `makedirs` and always-succeeding saves. -/
def cfgAllOriginal : SaveConfig :=
  ⟨str "out", str "original", [], str "all", true, fun _ => true⟩

/-- A `latest`-mode configuration with `date` naming, output folder `out`. -/
def cfgLatestDate : SaveConfig :=
  ⟨str "out", str "date", [], str "latest", true, fun _ => true⟩

/-- A message with a single classified attachment `a.pdf` and no provider
label. -/
def msgSingleA : EmailMessage :=
  { subject := str "status", sender := str "a@b.example", receivedTime := ⟨19845, 10⟩
    body := [], attachments := [str "a.pdf"], folderName := str "Inbox"
    providerName := [], rawAttachments := [⟨1, str "a.pdf"⟩] }

/-- A message with two classified document attachments with distinct
latest-mode keys (`report.pdf` and `invoice.pdf`) and no provider label. -/
def msgTwoDocs : EmailMessage :=
  { subject := str "reports", sender := str "a@b.example", receivedTime := ⟨19845, 10⟩
    body := [], attachments := [str "report.pdf", str "invoice.pdf"]
    folderName := str "Inbox", providerName := []
    rawAttachments := [⟨1, str "report.pdf"⟩, ⟨1, str "invoice.pdf"⟩] }

/-! ### Generic helper lemmas -/

theorem foldl_invariant {α β : Type} (step : α → β → α) (Inv : α → Prop)
    (h : ∀ st b, Inv st → Inv (step st b)) :
    ∀ (l : List β) (st : α), Inv st → Inv (l.foldl step st) := by
  intro l
  induction l with
  | nil => intro st hst; exact hst
  | cons b bs ih => intro st hst; exact ih (step st b) (h st b hst)

theorem mem_dinsert {β : Type} : ∀ (m : List (Str × β)) (k : Str) (v : β) (x : Str × β),
    x ∈ dinsert m k v → x = (k, v) ∨ x ∈ m
  | [], k, v, x, hx => by simpa [dinsert] using hx
  | p :: rest, k, v, x, hx => by
    by_cases hpk : p.1 = k
    · simp only [dinsert, if_pos hpk, List.mem_cons] at hx
      rcases hx with h | h
      · exact Or.inl h
      · exact Or.inr (List.mem_cons_of_mem _ h)
    · simp only [dinsert, if_neg hpk, List.mem_cons] at hx
      rcases hx with h | h
      · exact Or.inr (by simp [h])
      · rcases mem_dinsert rest k v x h with h' | h'
        · exact Or.inl h'
        · exact Or.inr (List.mem_cons_of_mem _ h')

theorem keys_dinsert_sub {β : Type} {m : List (Str × β)} {k : Str} {v : β} {k' : Str}
    (h : k' ∈ (dinsert m k v).map Prod.fst) : k' = k ∨ k' ∈ m.map Prod.fst := by
  rcases List.mem_map.1 h with ⟨x, hx, hfst⟩
  rcases mem_dinsert m k v x hx with h' | h'
  · left; rw [← hfst, h']
  · right; exact List.mem_map.2 ⟨x, h', hfst⟩

theorem keys_dinsert_nodup {β : Type} : ∀ (m : List (Str × β)) (k : Str) (v : β),
    (m.map Prod.fst).Nodup → ((dinsert m k v).map Prod.fst).Nodup
  | [], k, v, _ => by simp [dinsert]
  | p :: rest, k, v, h => by
    rw [List.map_cons] at h
    rcases List.nodup_cons.1 h with ⟨hp, hrest⟩
    by_cases hpk : p.1 = k
    · simp only [dinsert, if_pos hpk, List.map_cons]
      refine List.nodup_cons.2 ⟨?_, hrest⟩
      rw [← hpk]; exact hp
    · simp only [dinsert, if_neg hpk, List.map_cons]
      refine List.nodup_cons.2 ⟨?_, keys_dinsert_nodup rest k v hrest⟩
      intro hmem
      rcases keys_dinsert_sub hmem with h' | h'
      · exact hpk h'
      · exact hp h'

theorem dinsert_of_not_mem_keys {β : Type} : ∀ (m : List (Str × β)) (k : Str) (v : β),
    k ∉ m.map Prod.fst → dinsert m k v = m ++ [(k, v)]
  | [], k, v, _ => by simp [dinsert]
  | p :: rest, k, v, h => by
    rw [List.map_cons] at h
    have hpk : p.1 ≠ k := by
      intro he; exact h (by rw [← he]; exact List.mem_cons_self _ _)
    simp only [dinsert, if_neg hpk, List.cons_append, List.cons.injEq, true_and]
    exact dinsert_of_not_mem_keys rest k v (fun hm => h (List.mem_cons_of_mem _ hm))

theorem keys_dinsert_mono {β : Type} : ∀ (m : List (Str × β)) (k₀ : Str) (v₀ : β) (k : Str),
    k ∈ m.map Prod.fst → k ∈ (dinsert m k₀ v₀).map Prod.fst
  | [], _, _, _, h => by simp at h
  | p :: rest, k₀, v₀, k, h => by
    rw [List.map_cons, List.mem_cons] at h
    by_cases hpk : p.1 = k₀
    · simp only [dinsert, if_pos hpk, List.map_cons, List.mem_cons]
      rcases h with h | h
      · left; exact h.trans hpk
      · right; exact h
    · simp only [dinsert, if_neg hpk, List.map_cons, List.mem_cons]
      rcases h with h | h
      · left; exact h
      · right; exact keys_dinsert_mono rest k₀ v₀ k h

theorem entry_dinsert_mono {β : Type} : ∀ (m : List (Str × β)) (k₀ : Str) (v₀ : β) (k : Str),
    (∃ v, (k, v) ∈ m) → ∃ v, (k, v) ∈ dinsert m k₀ v₀
  | [], _, _, _, h => by simp at h
  | p :: rest, k₀, v₀, k, h => by
    rcases h with ⟨v, hv⟩
    by_cases hpk : p.1 = k₀
    · simp only [dinsert, if_pos hpk]
      rcases List.mem_cons.1 hv with h' | h'
      · refine ⟨v₀, ?_⟩
        have hk : k = k₀ := by rw [← hpk, ← h']
        simp [hk]
      · exact ⟨v, List.mem_cons_of_mem _ h'⟩
    · simp only [dinsert, if_neg hpk]
      rcases List.mem_cons.1 hv with h' | h'
      · exact ⟨v, by simp [h']⟩
      · rcases entry_dinsert_mono rest k₀ v₀ k ⟨v, h'⟩ with ⟨v', hv'⟩
        exact ⟨v', List.mem_cons_of_mem _ hv'⟩

theorem splitext_append (s : Str) : (splitext s).1 ++ (splitext s).2 = s := by
  rw [splitext]
  cases h : lastDotIdx s with
  | none => simp
  | some i =>
    dsimp only
    split
    · exact List.take_append_drop i s
    · simp

theorem length_splitext (s : Str) : (splitext s).1.length + (splitext s).2.length = s.length := by
  rw [← List.length_append, splitext_append]

theorem length_nextCand (f : Str) (c : Nat) : f.length < (nextCand f c).length := by
  have h := length_splitext f
  unfold nextCand
  simp only [List.length_append, List.length_cons]
  omega

theorem countP_lt_of_mem {α : Type} (p q : α → Bool) (l : List α) (a : α)
    (ha : a ∈ l) (hpa : p a = true) (hqa : q a = false)
    (himp : ∀ x, q x = true → p x = true) :
    l.countP q < l.countP p := by
  induction l with
  | nil => simp at ha
  | cons b bs ih =>
    rcases List.mem_cons.1 ha with h | h
    · subst h
      rw [List.countP_cons_of_pos _ _ hpa, List.countP_cons_of_neg _ _ (by simp [hqa])]
      have hmono : bs.countP q ≤ bs.countP p :=
        List.countP_mono_left (fun x _ hx => himp x hx)
      omega
    · have hlt := ih h
      by_cases hqb : q b = true
      · rw [List.countP_cons_of_pos _ _ hqb, List.countP_cons_of_pos _ _ (himp b hqb)]
        omega
      · rw [List.countP_cons_of_neg _ _ hqb]
        by_cases hpb : p b = true
        · rw [List.countP_cons_of_pos _ _ hpb]; omega
        · rw [List.countP_cons_of_neg _ _ hpb]; omega

theorem resolveCollision_spec : ∀ (fuel : Nat) (f : Str) (c : Nat) (disk : List Str),
    disk.countP (fun s => f.length ≤ s.length) < fuel →
    ∃ n, resolveCollision disk f c fuel = candSeq f c n ∧
      candSeq f c n ∉ disk ∧ ∀ m < n, candSeq f c m ∈ disk := by
  intro fuel
  induction fuel with
  | zero => intro f c disk h; exact absurd h (Nat.not_lt_zero _)
  | succ fuel ih =>
    intro f c disk h
    by_cases hf : f ∈ disk
    · have hcnt : disk.countP (fun s => (nextCand f c).length ≤ s.length) < fuel := by
        have hstep : disk.countP (fun s => (nextCand f c).length ≤ s.length)
            < disk.countP (fun s => f.length ≤ s.length) := by
          refine countP_lt_of_mem _ _ disk f hf (by simp) ?_ ?_
          · simp only [decide_eq_false_iff_not]
            exact Nat.not_le_of_lt (length_nextCand f c)
          · intro x hx
            simp only [decide_eq_true_eq] at hx ⊢
            exact Nat.le_trans (Nat.le_of_lt (length_nextCand f c)) hx
        omega
      rcases ih (nextCand f c) (c + 1) disk hcnt with ⟨n', heq, hnot, hall⟩
      refine ⟨n' + 1, ?_, ?_, ?_⟩
      · rw [resolveCollision, if_pos (List.elem_eq_true_of_mem hf), heq]
        rfl
      · simpa [candSeq] using hnot
      · intro m hm
        cases m with
        | zero => simpa [candSeq] using hf
        | succ m' =>
          have : candSeq f c (m' + 1) = candSeq (nextCand f c) (c + 1) m' := rfl
          rw [this]
          exact hall m' (by omega)
    · refine ⟨0, ?_, by simpa [candSeq] using hf, by intro m hm; omega⟩
      rw [resolveCollision]
      rw [if_neg (by simpa using hf)]
      rfl

/-- The collision loop's result never collides with the current directory
contents, provided the fuel exceeds the number of files (as it does at the
call site). -/
theorem resolveCollision_not_mem (disk : List Str) (f : Str) (c : Nat) (fuel : Nat)
    (h : disk.length < fuel) : resolveCollision disk f c fuel ∉ disk := by
  have hcnt : disk.countP (fun s => f.length ≤ s.length) < fuel :=
    Nat.lt_of_le_of_lt (List.countP_le_length _) h
  rcases resolveCollision_spec fuel f c disk hcnt with ⟨n, heq, hnot, _⟩
  rw [heq]; exact hnot

/-! ### Bridging lemmas between the two identical classification sites -/

theorem classifyAttachment_characterization (a : RawAttachment) :
    (classifyAttachment a).isSome = true ↔
      (a.attType = 1 ∧ ¬a.fileName.isEmpty ∧ ¬isDeniedName a.fileName ∧
        docExtensions.contains (plower (splitext a.fileName).2)) := by
  unfold classifyAttachment
  split_ifs with h1 h2 h3 h4 <;> simp_all

theorem processAttachment_of_not_classified (cfg : SaveConfig) (msg : EmailMessage)
    (st : SaveState) (a : RawAttachment) (h : (classifyAttachment a).isSome = false) :
    processAttachment cfg msg st a = st := by
  unfold processAttachment
  unfold classifyAttachment at h
  split_ifs with h1 h2 h3 h4 <;> simp_all

theorem processAttachment_of_classified (cfg : SaveConfig) (msg : EmailMessage)
    (st : SaveState) (a : RawAttachment) (h : (classifyAttachment a).isSome = true) :
    processAttachment cfg msg st a = processEligible cfg msg st a := by
  rcases (classifyAttachment_characterization a).1 h with ⟨h1, h2, h3, h4⟩
  have h4' : (!docExtensions.contains (plower (splitext a.fileName).2)) ≠ true := by
    rw [h4]; simp
  unfold processAttachment
  rw [if_neg (by simp [h1]), if_neg h2, if_neg h3, if_neg h4']

theorem processEligible_latest_skip (cfg : SaveConfig) (msg : EmailMessage) (st : SaveState)
    (a : RawAttachment) (hmode : cfg.extractionMode = str "latest")
    (hmem : fileKeyOf a.fileName ∈ st.latestFiles.map Prod.fst) :
    processEligible cfg msg st a = st := by
  have hc : (st.latestFiles.map Prod.fst).contains (fileKeyOf a.fileName) = true :=
    List.elem_eq_true_of_mem hmem
  unfold processEligible
  simp only [hmode, hc]
  simp

theorem processEligible_latest_claim_latestFiles (cfg : SaveConfig) (msg : EmailMessage)
    (st : SaveState) (a : RawAttachment) (hmode : cfg.extractionMode = str "latest")
    (hnot : fileKeyOf a.fileName ∉ st.latestFiles.map Prod.fst) :
    (processEligible cfg msg st a).latestFiles
      = st.latestFiles ++ [(fileKeyOf a.fileName, msg.receivedTime)] := by
  have hc : (st.latestFiles.map Prod.fst).contains (fileKeyOf a.fileName) = false := by
    cases hb : (st.latestFiles.map Prod.fst).contains (fileKeyOf a.fileName)
    · rfl
    · exact absurd (List.mem_of_elem_eq_true hb) hnot
  unfold processEligible
  simp only [hmode, hc]
  rw [dinsert_of_not_mem_keys st.latestFiles (fileKeyOf a.fileName) msg.receivedTime hnot]
  simp only [Bool.false_eq_true, if_false, eq_self_iff_true, if_true, Bool.not_true, Bool.not_false]
  split <;> rfl

theorem processAttachment_saveFail (cfg : SaveConfig) (msg : EmailMessage) (st : SaveState)
    (a : RawAttachment)
    (h : cfg.saveOk (finalFilename cfg st.disk msg a.fileName (splitext a.fileName).2) = false) :
    (processAttachment cfg msg st a).savedFiles = st.savedFiles ∧
      (processAttachment cfg msg st a).disk = st.disk := by
  by_cases hcl : (classifyAttachment a).isSome = true
  · rw [processAttachment_of_classified cfg msg st a hcl]
    unfold processEligible
    by_cases hm : cfg.extractionMode = str "latest"
    · by_cases hk : (st.latestFiles.map Prod.fst).contains (fileKeyOf a.fileName) = true
      · simp only [hm, hk]
        simp
      · simp only [Bool.not_eq_true] at hk
        simp only [hm, hk, h]
        simp
    · simp only [if_neg hm, h]
      simp
  · rw [processAttachment_of_not_classified cfg msg st a (by simpa using hcl)]
    exact ⟨rfl, rfl⟩

theorem processAttachment_saveOk_savedFiles (cfg : SaveConfig) (msg : EmailMessage)
    (st : SaveState) (a : RawAttachment)
    (hcl : (classifyAttachment a).isSome = true)
    (hpr : cfg.extractionMode ≠ str "latest" ∨
      fileKeyOf a.fileName ∉ st.latestFiles.map Prod.fst)
    (h : cfg.saveOk (finalFilename cfg st.disk msg a.fileName (splitext a.fileName).2) = true) :
    (processAttachment cfg msg st a).savedFiles
      = dinsert st.savedFiles (finalFilename cfg st.disk msg a.fileName (splitext a.fileName).2)
          (pjoin cfg.saveFolder (finalFilename cfg st.disk msg a.fileName (splitext a.fileName).2)) := by
  rw [processAttachment_of_classified cfg msg st a hcl]
  unfold processEligible
  rcases hpr with hm | hk
  · simp only [if_neg hm, h]
    simp
  · have hc : (st.latestFiles.map Prod.fst).contains (fileKeyOf a.fileName) = false := by
      cases hb : (st.latestFiles.map Prod.fst).contains (fileKeyOf a.fileName)
      · rfl
      · exact absurd (List.mem_of_elem_eq_true hb) hk
    by_cases hm : cfg.extractionMode = str "latest"
    · simp only [hm, hc, h]
      simp
    · simp only [if_neg hm, h]
      simp

/-- In `latest` mode the filename computation never consults the directory
contents (no collision loop). -/
theorem finalFilename_latest (cfg : SaveConfig) (hmode : cfg.extractionMode = str "latest")
    (disk disk' : List Str) (msg : EmailMessage) (n e : Str) :
    finalFilename cfg disk msg n e = finalFilename cfg disk' msg n e := by
  unfold finalFilename
  simp [hmode]

/-! ### Claim C6 -/

/-- C6: every attachment whose filename case-insensitively contains a
denylist substring is rejected by the classifier, regardless of its
extension — both at the message-collection site (`classifyAttachment`,
lines 417-444) and at the save site (`processAttachment`, lines 586-604),
where it leaves the run state untouched. -/
theorem C6_theorem (a : RawAttachment) (h : isDeniedName a.fileName = true) :
    classifyAttachment a = none ∧
      ∀ (cfg : SaveConfig) (msg : EmailMessage) (st : SaveState),
        processAttachment cfg msg st a = st := by
  constructor
  · unfold classifyAttachment
    split_ifs with h1 h2 h3 <;> simp_all
  · intro cfg msg st
    unfold processAttachment
    split_ifs with h1 h2 h3 <;> simp_all

/-- Witness for C6 at `logo.pdf`: denylisted (`logo`) although `.pdf` is in
the document allow-list. -/
theorem C6_witness :
    classifyAttachment ⟨1, str "Logo.pdf"⟩ = none ∧
      docExtensions.contains (plower (splitext (str "Logo.pdf")).2) = true :=
  ⟨(C6_theorem ⟨1, str "Logo.pdf"⟩ (by decide)).1, by decide⟩

/-! ### Claim C8 -/

/-- C8: for a lookback window of at least one day, the date check rejects a
message exactly when its received timestamp's date is strictly earlier than
`(now - timedelta(days=days)).date()`, and always rejects a message without
a usable timestamp (lines 356-357, 396-403). -/
theorem C8_theorem (received : Option PyDateTime) (now : PyDateTime) (days : Nat)
    (hdays : 1 ≤ days) :
    passesDateCheck received (pySubDays now days) = false ↔
      received = none ∨ ∃ t, received = some t ∧ t.date < now.date - days := by
  cases received with
  | none => simp [passesDateCheck]
  | some t =>
    simp only [passesDateCheck, pySubDays]
    by_cases hlt : t.date < now.date - (days : Int)
    · simp [hlt]
    · simp [hlt]

/-- Witness for C8: a message from day 0 is rejected against a 7-day window
ending on day 10. -/
theorem C8_witness :
    passesDateCheck (some ⟨0, 0⟩) (pySubDays ⟨10, 0⟩ 7) = false ↔
      (some ⟨0, 0⟩ : Option PyDateTime) = none ∨
        ∃ t, (some (⟨0, 0⟩ : PyDateTime) : Option PyDateTime) = some t ∧
          t.date < (⟨10, 0⟩ : PyDateTime).date - (7 : Nat) :=
  C8_theorem (some ⟨0, 0⟩) ⟨10, 0⟩ 7 (by decide)

/-! ### Claim C1 -/

theorem find?_first {α : Type} (p : α → Bool) :
    ∀ (pre : List α) (x : α) (post : List α),
      (∀ y ∈ pre, p y = false) → p x = true →
      (pre ++ x :: post).find? p = some x
  | [], x, post, _, hx => by
    rw [List.nil_append, List.find?_cons_of_pos _ hx]
  | y :: pre, x, post, hpre, hx => by
    have hy : p y = false := hpre y (by simp)
    rw [List.cons_append, List.find?_cons_of_neg _ (by simp [hy])]
    exact find?_first p pre x post (fun z hz => hpre z (by simp [hz])) hx

/-- C1, corrected: for a non-empty rule table and a determinable sender, the
provider check of `_should_include_message` scans rules in table order and a
rule matches exactly when its pattern is a substring of the sender address or
the sender address is a substring of the pattern — for every pattern, with or
without `@`, and without ever consulting the subject (lines 202-208); the
first match yields `(true, label)` and no match yields `(false, "")`. -/
theorem C1_theorem (providers : List (Str × Str)) (senderEmail : Str)
    (hne : providers ≠ []) (hs : senderEmail ≠ []) :
    (∀ (pre : List (Str × Str)) (rule : Str × Str) (post : List (Str × Str)),
        providers = pre ++ rule :: post →
        (∀ r ∈ pre, ruleMatches senderEmail r = false) →
        ruleMatches senderEmail rule = true →
        shouldIncludeMessage providers senderEmail = (true, rule.2))
    ∧ ((∀ r ∈ providers, ruleMatches senderEmail r = false) →
        shouldIncludeMessage providers senderEmail = (false, [])) := by
  have hne' : ¬providers.isEmpty = true := by
    cases providers with
    | nil => exact absurd rfl hne
    | cons p rest => simp
  have hs' : ¬senderEmail.isEmpty = true := by
    cases senderEmail with
    | nil => exact absurd rfl hs
    | cons c rest => simp
  constructor
  · intro pre rule post hsplit hpre hrule
    unfold shouldIncludeMessage
    rw [if_neg hne', if_neg hs', hsplit,
      find?_first (fun r => ruleMatches senderEmail r) pre rule post hpre hrule]
  · intro hall
    unfold shouldIncludeMessage
    rw [if_neg hne', if_neg hs',
      List.find?_eq_none.2 (fun r hr => by simp [hall r hr])]

/-- Witness for C1 at the single-rule table `acme.com = ACME` and sender
`billing@acme.com`. -/
theorem C1_witness :
    shouldIncludeMessage [(str "acme.com", str "ACME")] (str "billing@acme.com")
      = (true, str "ACME") :=
  (C1_theorem [(str "acme.com", str "ACME")] (str "billing@acme.com")
      (by decide) (by decide)).1
    [] (str "acme.com", str "ACME") [] rfl (by intro r hr; simp at hr) (by decide)

/-- Counterexample to C1 as stated: the pattern `report` has no `@` and is a
substring of the lower-cased subject `Quarterly report`, so the claim
predicts `(true, "R")`; the code never consults the subject and returns
`(false, "")`. -/
theorem C1_counterexample :
    shouldIncludeMessage [(str "report", str "R")] (str "alice@example.com") = (false, [])
    ∧ pyIn (str "report") (plower (str "Quarterly report")) = true
    ∧ pyIn (str "@") (str "report") = false := by decide

/-! ### Claim C2 -/

/-- C2, corrected: in `all` mode the collision loop tries the candidate
sequence `candSeq` — the base name, then with `_1` inserted before the
extension, then additionally `_2` (the numeric suffixes accumulate on the
previously tried name rather than replacing each other) — and returns the
first candidate that does not exist, provided the fuel exceeds the number of
existing files, as at the call site.  -/
theorem C2_theorem (disk : List Str) (f : Str) (fuel : Nat) (h : disk.length < fuel) :
    ∃ n, resolveCollision disk f 1 fuel = candSeq f 1 n ∧
      candSeq f 1 n ∉ disk ∧ ∀ m < n, candSeq f 1 m ∈ disk :=
  resolveCollision_spec fuel f 1 disk (Nat.lt_of_le_of_lt (List.countP_le_length _) h)

/-- Witness for C2: with `unknown_a.pdf` and `unknown_a_1.pdf` present, the
loop settles on the first free accumulated candidate. -/
theorem C2_witness :
    ∃ n, resolveCollision [str "unknown_a.pdf", str "unknown_a_1.pdf"]
          (str "unknown_a.pdf") 1 3
        = candSeq (str "unknown_a.pdf") 1 n ∧
      candSeq (str "unknown_a.pdf") 1 n ∉ [str "unknown_a.pdf", str "unknown_a_1.pdf"] ∧
      ∀ m < n, candSeq (str "unknown_a.pdf") 1 m ∈ [str "unknown_a.pdf", str "unknown_a_1.pdf"] :=
  C2_theorem [str "unknown_a.pdf", str "unknown_a_1.pdf"] (str "unknown_a.pdf") 3 (by decide)

/-- Counterexample to C2 as stated: with `unknown_a.pdf` and
`unknown_a_1.pdf` already in the output directory, the claim predicts the
final name `unknown_a_2.pdf` (suffixes `_1`, `_2`, … tried in turn on the
original stem); the code instead produces `unknown_a_1_2.pdf`, because the
second suffix is appended to the already-renamed candidate. -/
theorem C2_counterexample :
    save_attachments cfgAllOriginal [str "unknown_a.pdf", str "unknown_a_1.pdf"] [msgSingleA]
      = [(str "unknown_a_1_2.pdf", str "out/unknown_a_1_2.pdf")]
    ∧ str "unknown_a_1_2.pdf" ≠ str "unknown_a_2.pdf" := by decide

/-! ### Claim C9 -/

/-- Counterexample to C9: on `ACME.com = Acme` the manager's parser
lower-cases the pattern while the processor's keeps it verbatim, so the two
rule tables differ. -/
theorem C9_counterexample :
    parseProviderSettings (str "ACME.com = Acme") = [(str "acme.com", str "Acme")]
    ∧ parseProvidersConfigEP (str "ACME.com = Acme") = [(str "ACME.com", str "Acme")]
    ∧ parseProviderSettings (str "ACME.com = Acme")
        ≠ parseProvidersConfigEP (str "ACME.com = Acme") := by decide

/-! ### Claim C3 -/

/-- Counterexample to C3 as stated: in `latest` mode with `date` naming, the
two attachments `report.pdf` and `invoice.pdf` of one message both survive
classification and dedup (two distinct keys are claimed), yet both compute
the same final filename `unknown<date>.pdf`, so the returned mapping has a
single record instead of one record per surviving attachment. -/
theorem C3_counterexample :
    (saveRun cfgLatestDate [] [msgTwoDocs]).latestFiles.length = 2
    ∧ (msgTwoDocs.rawAttachments.countP (fun a => (classifyAttachment a).isSome)) = 2
    ∧ (save_attachments cfgLatestDate [] [msgTwoDocs]).length = 1 := by
  have hrun : saveRun cfgLatestDate [] [msgTwoDocs]
      = List.foldl (processMessage cfgLatestDate) ⟨[], [], []⟩ [msgTwoDocs] := by
    unfold saveRun
    rw [if_pos (show cfgLatestDate.extractionMode = str "latest" from rfl)]
    rw [show sortByReceivedDesc [msgTwoDocs] = [msgTwoDocs] from List.mergeSort_singleton _]
  have hsave : save_attachments cfgLatestDate [] [msgTwoDocs]
      = (List.foldl (processMessage cfgLatestDate) ⟨[], [], []⟩ [msgTwoDocs]).savedFiles := by
    unfold save_attachments
    rw [if_neg (by decide), if_neg (by decide), hrun]
  rw [hrun, hsave]
  decide

/-! ### Claim C10 -/

theorem foldl_rel {α β : Type} (step : α → β → α) (R : α → α → Prop)
    (h : ∀ s s' b, R s s' → R (step s b) (step s' b)) :
    ∀ (l : List β) (s s' : α), R s s' → R (l.foldl step s) (l.foldl step s')
  | [], _, _, hr => hr
  | b :: bs, s, s', hr => foldl_rel step R h bs _ _ (h s s' b hr)

theorem processEligible_latest_claim_eq (cfg : SaveConfig) (msg : EmailMessage)
    (st : SaveState) (a : RawAttachment) (hmode : cfg.extractionMode = str "latest")
    (hnot : fileKeyOf a.fileName ∉ st.latestFiles.map Prod.fst) :
    processEligible cfg msg st a =
      (if cfg.saveOk (finalFilename cfg st.disk msg a.fileName (splitext a.fileName).2) then
        { savedFiles :=
            dinsert st.savedFiles (finalFilename cfg st.disk msg a.fileName (splitext a.fileName).2)
              (pjoin cfg.saveFolder (finalFilename cfg st.disk msg a.fileName (splitext a.fileName).2))
          latestFiles := st.latestFiles ++ [(fileKeyOf a.fileName, msg.receivedTime)]
          disk :=
            if st.disk.contains (finalFilename cfg st.disk msg a.fileName (splitext a.fileName).2)
            then st.disk
            else finalFilename cfg st.disk msg a.fileName (splitext a.fileName).2 :: st.disk }
      else { st with latestFiles := st.latestFiles ++ [(fileKeyOf a.fileName, msg.receivedTime)] }) := by
  have hc : (st.latestFiles.map Prod.fst).contains (fileKeyOf a.fileName) = false := by
    cases hb : (st.latestFiles.map Prod.fst).contains (fileKeyOf a.fileName)
    · rfl
    · exact absurd (List.mem_of_elem_eq_true hb) hnot
  unfold processEligible
  simp only [hmode, hc]
  rw [dinsert_of_not_mem_keys st.latestFiles (fileKeyOf a.fileName) msg.receivedTime hnot]
  simp

theorem processAttachment_latest_rel (cfg : SaveConfig)
    (hmode : cfg.extractionMode = str "latest") (msg : EmailMessage)
    (st st' : SaveState) (a : RawAttachment)
    (h1 : st.savedFiles = st'.savedFiles) (h2 : st.latestFiles = st'.latestFiles) :
    (processAttachment cfg msg st a).savedFiles = (processAttachment cfg msg st' a).savedFiles ∧
      (processAttachment cfg msg st a).latestFiles = (processAttachment cfg msg st' a).latestFiles := by
  by_cases hcl : (classifyAttachment a).isSome = true
  · rw [processAttachment_of_classified cfg msg st a hcl,
      processAttachment_of_classified cfg msg st' a hcl]
    by_cases hk : fileKeyOf a.fileName ∈ st.latestFiles.map Prod.fst
    · have hk' : fileKeyOf a.fileName ∈ st'.latestFiles.map Prod.fst := by rw [← h2]; exact hk
      rw [processEligible_latest_skip cfg msg st a hmode hk,
        processEligible_latest_skip cfg msg st' a hmode hk']
      exact ⟨h1, h2⟩
    · have hk' : fileKeyOf a.fileName ∉ st'.latestFiles.map Prod.fst := by rw [← h2]; exact hk
      have hfn : finalFilename cfg st.disk msg a.fileName (splitext a.fileName).2
          = finalFilename cfg st'.disk msg a.fileName (splitext a.fileName).2 :=
        finalFilename_latest cfg hmode _ _ _ _ _
      rw [processEligible_latest_claim_eq cfg msg st a hmode hk,
        processEligible_latest_claim_eq cfg msg st' a hmode hk', hfn, h1, h2]
      split <;> exact ⟨rfl, rfl⟩
  · rw [processAttachment_of_not_classified cfg msg st a (by simpa using hcl),
      processAttachment_of_not_classified cfg msg st' a (by simpa using hcl)]
    exact ⟨h1, h2⟩

theorem processMessage_latest_rel (cfg : SaveConfig)
    (hmode : cfg.extractionMode = str "latest") (st st' : SaveState) (msg : EmailMessage)
    (h : st.savedFiles = st'.savedFiles ∧ st.latestFiles = st'.latestFiles) :
    (processMessage cfg st msg).savedFiles = (processMessage cfg st' msg).savedFiles ∧
      (processMessage cfg st msg).latestFiles = (processMessage cfg st' msg).latestFiles := by
  unfold processMessage
  by_cases hatt : msg.attachments.isEmpty = true
  · rw [if_pos hatt, if_pos hatt]; exact h
  · rw [if_neg hatt, if_neg hatt]
    exact foldl_rel (processAttachment cfg msg)
      (fun s s' => s.savedFiles = s'.savedFiles ∧ s.latestFiles = s'.latestFiles)
      (fun s s' b hr => processAttachment_latest_rel cfg hmode msg s s' b hr.1 hr.2)
      msg.rawAttachments st st' h

theorem processEligible_all_eq (cfg : SaveConfig) (msg : EmailMessage)
    (st : SaveState) (a : RawAttachment) (hmode : cfg.extractionMode ≠ str "latest") :
    processEligible cfg msg st a =
      (if cfg.saveOk (finalFilename cfg st.disk msg a.fileName (splitext a.fileName).2) then
        { savedFiles :=
            dinsert st.savedFiles (finalFilename cfg st.disk msg a.fileName (splitext a.fileName).2)
              (pjoin cfg.saveFolder (finalFilename cfg st.disk msg a.fileName (splitext a.fileName).2))
          latestFiles := st.latestFiles
          disk :=
            if st.disk.contains (finalFilename cfg st.disk msg a.fileName (splitext a.fileName).2)
            then st.disk
            else finalFilename cfg st.disk msg a.fileName (splitext a.fileName).2 :: st.disk }
      else st) := by
  unfold processEligible
  simp only [if_neg hmode]
  simp

theorem processEligible_savedFiles_cases (cfg : SaveConfig) (msg : EmailMessage)
    (st : SaveState) (a : RawAttachment) :
    (processEligible cfg msg st a).savedFiles = st.savedFiles ∨
      (cfg.saveOk (finalFilename cfg st.disk msg a.fileName (splitext a.fileName).2) = true ∧
        (processEligible cfg msg st a).savedFiles
          = dinsert st.savedFiles (finalFilename cfg st.disk msg a.fileName (splitext a.fileName).2)
              (pjoin cfg.saveFolder (finalFilename cfg st.disk msg a.fileName (splitext a.fileName).2))) := by
  by_cases hm : cfg.extractionMode = str "latest"
  · by_cases hk : fileKeyOf a.fileName ∈ st.latestFiles.map Prod.fst
    · rw [processEligible_latest_skip cfg msg st a hm hk]
      exact Or.inl rfl
    · rw [processEligible_latest_claim_eq cfg msg st a hm hk]
      split
      · rename_i hok
        exact Or.inr ⟨hok, rfl⟩
      · exact Or.inl rfl
  · rw [processEligible_all_eq cfg msg st a hm]
    split
    · rename_i hok
      exact Or.inr ⟨hok, rfl⟩
    · exact Or.inl rfl

theorem processAttachment_savedFiles_cases (cfg : SaveConfig) (msg : EmailMessage)
    (st : SaveState) (a : RawAttachment) :
    (processAttachment cfg msg st a).savedFiles = st.savedFiles ∨
      (cfg.saveOk (finalFilename cfg st.disk msg a.fileName (splitext a.fileName).2) = true ∧
        (processAttachment cfg msg st a).savedFiles
          = dinsert st.savedFiles (finalFilename cfg st.disk msg a.fileName (splitext a.fileName).2)
              (pjoin cfg.saveFolder (finalFilename cfg st.disk msg a.fileName (splitext a.fileName).2))) := by
  by_cases hcl : (classifyAttachment a).isSome = true
  · rw [processAttachment_of_classified cfg msg st a hcl]
    exact processEligible_savedFiles_cases cfg msg st a
  · rw [processAttachment_of_not_classified cfg msg st a (by simpa using hcl)]
    exact Or.inl rfl

theorem processAttachment_savedPath_inv (cfg : SaveConfig) (msg : EmailMessage)
    (st : SaveState) (a : RawAttachment)
    (hInv : ∀ fp ∈ st.savedFiles, fp.2 = pjoin cfg.saveFolder fp.1) :
    ∀ fp ∈ (processAttachment cfg msg st a).savedFiles, fp.2 = pjoin cfg.saveFolder fp.1 := by
  rcases processAttachment_savedFiles_cases cfg msg st a with h | ⟨_, h⟩
  · rw [h]; exact hInv
  · rw [h]
    intro fp hfp
    rcases mem_dinsert _ _ _ _ hfp with h' | h'
    · rw [h']
    · exact hInv fp h'

theorem processMessage_savedPath_inv (cfg : SaveConfig) (st : SaveState) (msg : EmailMessage)
    (hInv : ∀ fp ∈ st.savedFiles, fp.2 = pjoin cfg.saveFolder fp.1) :
    ∀ fp ∈ (processMessage cfg st msg).savedFiles, fp.2 = pjoin cfg.saveFolder fp.1 := by
  unfold processMessage
  split
  · exact hInv
  · exact foldl_invariant (processAttachment cfg msg)
      (fun s => ∀ fp ∈ s.savedFiles, fp.2 = pjoin cfg.saveFolder fp.1)
      (fun s b hs => processAttachment_savedPath_inv cfg msg s b hs)
      msg.rawAttachments st hInv

/-- C10: in `latest` mode `save_attachments` applies no collision resolution:
the result is independent of the output directory's prior contents (an
existing file of the same name is simply overwritten by `SaveAsFile`), and
every record's saved path is exactly the output folder joined with its final
filename (lines 621-628 and 649-654). -/
theorem C10_theorem (cfg : SaveConfig) (hmode : cfg.extractionMode = str "latest") :
    (∀ disk disk' msgs, save_attachments cfg disk msgs = save_attachments cfg disk' msgs)
    ∧ (∀ disk msgs, ∀ fp ∈ save_attachments cfg disk msgs,
        fp.2 = pjoin cfg.saveFolder fp.1) := by
  constructor
  · intro disk disk' msgs
    unfold save_attachments
    by_cases he : cfg.saveFolder.isEmpty = true
    · rw [if_pos he, if_pos he]
    · rw [if_neg he, if_neg he]
      by_cases hmk : (!cfg.mkdirOk) = true
      · rw [if_pos hmk, if_pos hmk]
      · rw [if_neg hmk, if_neg hmk]
        unfold saveRun
        exact (foldl_rel (processMessage cfg)
          (fun s s' => s.savedFiles = s'.savedFiles ∧ s.latestFiles = s'.latestFiles)
          (fun s s' b hr => processMessage_latest_rel cfg hmode s s' b hr)
          _ ⟨[], [], disk⟩ ⟨[], [], disk'⟩ ⟨rfl, rfl⟩).1
  · intro disk msgs fp hfp
    unfold save_attachments at hfp
    by_cases he : cfg.saveFolder.isEmpty = true
    · rw [if_pos he] at hfp; simp at hfp
    · rw [if_neg he] at hfp
      by_cases hmk : (!cfg.mkdirOk) = true
      · rw [if_pos hmk] at hfp; simp at hfp
      · rw [if_neg hmk] at hfp
        revert fp hfp
        unfold saveRun
        exact foldl_invariant (processMessage cfg)
          (fun s => ∀ fp ∈ s.savedFiles, fp.2 = pjoin cfg.saveFolder fp.1)
          (fun s b hs => processMessage_savedPath_inv cfg s b hs)
          _ ⟨[], [], disk⟩ (by intro fp hfp; simp at hfp)

/-- Witness for C10: a pre-existing file with the very name the run produces
does not change the outcome of a latest-mode run. -/
theorem C10_witness :
    save_attachments cfgLatestDate [str "unknown2024-05-02.pdf"] [msgTwoDocs]
      = save_attachments cfgLatestDate [] [msgTwoDocs] :=
  (C10_theorem cfgLatestDate rfl).1 [str "unknown2024-05-02.pdf"] [] [msgTwoDocs]

/-! ### Claim C5 -/

theorem foldl_invariant_mem {α β : Type} (step : α → β → α) (Inv : α → Prop) :
    ∀ (l : List β), (∀ st b, b ∈ l → Inv st → Inv (step st b)) →
      ∀ st, Inv st → Inv (l.foldl step st)
  | [], _, _, h => h
  | b :: bs, hstep, st, h =>
    foldl_invariant_mem step Inv bs
      (fun st' b' hb' => hstep st' b' (List.mem_cons_of_mem _ hb')) _
      (hstep st b (List.mem_cons_self _ _) h)

theorem processAttachment_saveOk_inv (cfg : SaveConfig) (msg : EmailMessage)
    (st : SaveState) (a : RawAttachment)
    (hInv : ∀ fp ∈ st.savedFiles, cfg.saveOk fp.1 = true) :
    ∀ fp ∈ (processAttachment cfg msg st a).savedFiles, cfg.saveOk fp.1 = true := by
  rcases processAttachment_savedFiles_cases cfg msg st a with h | ⟨hok, h⟩
  · rw [h]; exact hInv
  · rw [h]
    intro fp hfp
    rcases mem_dinsert _ _ _ _ hfp with h' | h'
    · rw [h']; exact hok
    · exact hInv fp h'

theorem processMessage_saveOk_inv (cfg : SaveConfig) (st : SaveState) (msg : EmailMessage)
    (hInv : ∀ fp ∈ st.savedFiles, cfg.saveOk fp.1 = true) :
    ∀ fp ∈ (processMessage cfg st msg).savedFiles, cfg.saveOk fp.1 = true := by
  unfold processMessage
  split
  · exact hInv
  · exact foldl_invariant (processAttachment cfg msg)
      (fun s => ∀ fp ∈ s.savedFiles, cfg.saveOk fp.1 = true)
      (fun s b hs => processAttachment_saveOk_inv cfg msg s b hs)
      msg.rawAttachments st hInv

theorem processAttachment_entry_mono (cfg : SaveConfig) (msg : EmailMessage)
    (st : SaveState) (a : RawAttachment) (k : Str)
    (h : ∃ v, (k, v) ∈ st.savedFiles) :
    ∃ v, (k, v) ∈ (processAttachment cfg msg st a).savedFiles := by
  rcases processAttachment_savedFiles_cases cfg msg st a with heq | ⟨_, heq⟩
  · rw [heq]; exact h
  · rw [heq]; exact entry_dinsert_mono _ _ _ _ h

theorem processMessage_entry_mono (cfg : SaveConfig) (st : SaveState) (msg : EmailMessage)
    (k : Str) (h : ∃ v, (k, v) ∈ st.savedFiles) :
    ∃ v, (k, v) ∈ (processMessage cfg st msg).savedFiles := by
  unfold processMessage
  split
  · exact h
  · exact foldl_invariant (processAttachment cfg msg)
      (fun s => ∃ v, (k, v) ∈ s.savedFiles)
      (fun s b hs => processAttachment_entry_mono cfg msg s b k hs)
      msg.rawAttachments st h

/-- C5: per-attachment save failures have partial-failure semantics.  A
failing `SaveAsFile` leaves the `saved_files` mapping and the directory
contents unchanged — only that attachment is skipped, and since the run is a
fold over the remaining messages and attachments, processing continues
exactly as it would from the same state (lines 675-677).  Every record of the
returned mapping corresponds to a successful save, and a filename recorded at
any point of the run is still present in the mapping after any further
messages are processed — whatever succeeded before, during or after a failure
is returned.  An output directory that exists but is unwritable manifests as
exactly these per-attachment failures. -/
theorem C5_theorem (cfg : SaveConfig) :
    (∀ (msg : EmailMessage) (st : SaveState) (a : RawAttachment),
        cfg.saveOk (finalFilename cfg st.disk msg a.fileName (splitext a.fileName).2) = false →
        (processAttachment cfg msg st a).savedFiles = st.savedFiles ∧
          (processAttachment cfg msg st a).disk = st.disk)
    ∧ (∀ (disk : List Str) (msgs : List EmailMessage),
        ∀ fp ∈ save_attachments cfg disk msgs, cfg.saveOk fp.1 = true)
    ∧ (∀ (msgs : List EmailMessage) (st : SaveState) (k : Str),
        (∃ v, (k, v) ∈ st.savedFiles) →
        ∃ v, (k, v) ∈ (msgs.foldl (processMessage cfg) st).savedFiles) := by
  refine ⟨?_, ?_, ?_⟩
  · intro msg st a h
    exact processAttachment_saveFail cfg msg st a h
  · intro disk msgs fp hfp
    unfold save_attachments at hfp
    by_cases he : cfg.saveFolder.isEmpty = true
    · rw [if_pos he] at hfp; simp at hfp
    · rw [if_neg he] at hfp
      by_cases hmk : (!cfg.mkdirOk) = true
      · rw [if_pos hmk] at hfp; simp at hfp
      · rw [if_neg hmk] at hfp
        revert fp hfp
        unfold saveRun
        exact foldl_invariant (processMessage cfg)
          (fun s => ∀ fp ∈ s.savedFiles, cfg.saveOk fp.1 = true)
          (fun s b hs => processMessage_saveOk_inv cfg s b hs)
          _ ⟨[], [], disk⟩ (by intro fp hfp; simp at hfp)
  · intro msgs st k h
    exact foldl_invariant (processMessage cfg)
      (fun s => ∃ v, (k, v) ∈ s.savedFiles)
      (fun s b hs => processMessage_entry_mono cfg s b k hs)
      msgs st h

/-- Witness for C5: in the always-succeeding run every returned record indeed
has a succeeding save. -/
theorem C5_witness : cfgAllOriginal.saveOk (str "unknown_a.pdf") = true :=
  (C5_theorem cfgAllOriginal).2.1 [] [msgSingleA]
    (str "unknown_a.pdf", str "out/unknown_a.pdf") (by decide)

/-! ### Claim C7 -/

theorem lastDotIdx_elem : ∀ (s : Str) (i : Nat), lastDotIdx s = some i → s[i]? = some '.'
  | [], i, h => by simp [lastDotIdx] at h
  | c :: cs, i, h => by
    rw [lastDotIdx] at h
    cases hr : lastDotIdx cs with
    | some j =>
      rw [hr] at h
      injection h with h'
      rw [← h']
      simpa using lastDotIdx_elem cs j hr
    | none =>
      rw [hr] at h
      by_cases hc : c = '.'
      · rw [if_pos hc] at h
        injection h with h'
        rw [← h', hc]
        simp
      · rw [if_neg hc] at h
        exact absurd h (by simp)

theorem prefix_splitext_fst (p f : Str) (hdot : '.' ∉ p) (hpre : ∃ r, f = p ++ r) :
    ∃ r, (splitext f).1 = p ++ r := by
  rcases hpre with ⟨r, rfl⟩
  rw [splitext]
  cases h : lastDotIdx (p ++ r) with
  | none => exact ⟨r, rfl⟩
  | some i =>
    dsimp only
    split
    · have hi : p.length ≤ i := by
        by_contra hlt
        push_neg at hlt
        have hget := lastDotIdx_elem (p ++ r) i h
        rw [List.getElem?_append_left hlt] at hget
        exact hdot (List.getElem?_mem hget)
      refine ⟨List.take (i - p.length) r, ?_⟩
      show List.take i (p ++ r) = p ++ List.take (i - p.length) r
      rw [List.take_append_eq_append_take, List.take_of_length_le hi]
    · exact ⟨r, rfl⟩

theorem prefix_nextCand (p f : Str) (c : Nat) (hdot : '.' ∉ p) (hpre : ∃ r, f = p ++ r) :
    ∃ r, nextCand f c = p ++ r := by
  rcases prefix_splitext_fst p f hdot hpre with ⟨r1, h1⟩
  refine ⟨r1 ++ '_' :: (natStr c ++ (splitext f).2), ?_⟩
  show (splitext f).1 ++ '_' :: (natStr c ++ (splitext f).2) = _
  rw [h1, List.append_assoc]

theorem prefix_resolveCollision (p : Str) (disk : List Str) (hdot : '.' ∉ p) :
    ∀ (fuel : Nat) (f : Str) (c : Nat), (∃ r, f = p ++ r) →
      ∃ r, resolveCollision disk f c fuel = p ++ r
  | 0, f, _, hpre => by rw [resolveCollision]; exact hpre
  | fuel + 1, f, c, hpre => by
    rw [resolveCollision]
    split
    · exact prefix_resolveCollision p disk hdot fuel (nextCand f c) (c + 1)
        (prefix_nextCand p f c hdot hpre)
    · exact hpre

theorem finalFilename_unknown (cfg : SaveConfig) (disk : List Str) (msg : EmailMessage)
    (hlab : msg.providerName = []) (n e : Str) :
    ∃ r, finalFilename cfg disk msg n e = str "unknown" ++ r := by
  have hbase : ∃ r,
      baseFilename cfg (str "unknown") (namingSuffix cfg msg.receivedTime) n e
        = str "unknown" ++ r := by
    unfold baseFilename
    split_ifs <;> first
      | exact ⟨_, List.append_assoc _ _ _⟩
      | exact ⟨_, rfl⟩
  unfold finalFilename
  rw [hlab]
  simp only [List.isEmpty_nil, Bool.not_true, Bool.false_eq_true, if_false]
  split
  · exact hbase
  · exact prefix_resolveCollision (str "unknown") disk (by decide) _ _ 1 hbase

theorem processAttachment_unknown_inv (cfg : SaveConfig) (msg : EmailMessage)
    (st : SaveState) (a : RawAttachment) (hlab : msg.providerName = [])
    (hInv : ∀ fp ∈ st.savedFiles, ∃ r, fp.1 = str "unknown" ++ r) :
    ∀ fp ∈ (processAttachment cfg msg st a).savedFiles, ∃ r, fp.1 = str "unknown" ++ r := by
  rcases processAttachment_savedFiles_cases cfg msg st a with h | ⟨_, h⟩
  · rw [h]; exact hInv
  · rw [h]
    intro fp hfp
    rcases mem_dinsert _ _ _ _ hfp with h' | h'
    · rw [h']
      exact finalFilename_unknown cfg st.disk msg hlab a.fileName (splitext a.fileName).2
    · exact hInv fp h'

theorem processMessage_unknown_inv (cfg : SaveConfig) (st : SaveState) (msg : EmailMessage)
    (hlab : msg.providerName = [])
    (hInv : ∀ fp ∈ st.savedFiles, ∃ r, fp.1 = str "unknown" ++ r) :
    ∀ fp ∈ (processMessage cfg st msg).savedFiles, ∃ r, fp.1 = str "unknown" ++ r := by
  unfold processMessage
  split
  · exact hInv
  · exact foldl_invariant (processAttachment cfg msg)
      (fun s => ∀ fp ∈ s.savedFiles, ∃ r, fp.1 = str "unknown" ++ r)
      (fun s b hs => processAttachment_unknown_inv cfg msg s b hlab hs)
      msg.rawAttachments st hInv

/-- C7: with an empty parsed rule table the provider check includes every
message with the empty label (lines 156-157; an entirely blank configuration
parses to the empty table), and in a run whose messages all carry the empty
label every output filename starts with the literal `unknown` (line 619),
in both modes and also after collision renaming. -/
theorem C7_theorem :
    (∀ senderEmail, shouldIncludeMessage [] senderEmail = (true, []))
    ∧ parseProviderSettings [] = []
    ∧ (∀ (cfg : SaveConfig) (disk : List Str) (msgs : List EmailMessage),
        (∀ m ∈ msgs, m.providerName = []) →
        ∀ fp ∈ save_attachments cfg disk msgs, ∃ r, fp.1 = str "unknown" ++ r) := by
  refine ⟨?_, rfl, ?_⟩
  · intro senderEmail
    rfl
  · intro cfg disk msgs hlab fp hfp
    unfold save_attachments at hfp
    by_cases he : cfg.saveFolder.isEmpty = true
    · rw [if_pos he] at hfp; simp at hfp
    · rw [if_neg he] at hfp
      by_cases hmk : (!cfg.mkdirOk) = true
      · rw [if_pos hmk] at hfp; simp at hfp
      · rw [if_neg hmk] at hfp
        revert fp hfp
        unfold saveRun
        split
        · refine foldl_invariant_mem (processMessage cfg)
            (fun s => ∀ fp ∈ s.savedFiles, ∃ r, fp.1 = str "unknown" ++ r)
            (sortByReceivedDesc msgs) ?_ ⟨[], [], disk⟩ (by intro fp hfp; simp at hfp)
          intro s m hm hs
          exact processMessage_unknown_inv cfg s m
            (hlab m (by simpa [sortByReceivedDesc] using hm)) hs
        · refine foldl_invariant_mem (processMessage cfg)
            (fun s => ∀ fp ∈ s.savedFiles, ∃ r, fp.1 = str "unknown" ++ r)
            msgs ?_ ⟨[], [], disk⟩ (by intro fp hfp; simp at hfp)
          intro s m hm hs
          exact processMessage_unknown_inv cfg s m (hlab m hm) hs

/-- Witness for C7: the single record of a labelless run is prefixed with
`unknown`. -/
theorem C7_witness : ∃ r, str "unknown_a.pdf" = str "unknown" ++ r :=
  C7_theorem.2.2 cfgAllOriginal [] [msgSingleA] (by decide)
    (str "unknown_a.pdf", str "out/unknown_a.pdf") (by decide)

/-! ### Claim C3 (amended theorem) -/

theorem processAttachment_keysNodup (cfg : SaveConfig) (msg : EmailMessage)
    (st : SaveState) (a : RawAttachment)
    (h : (st.savedFiles.map Prod.fst).Nodup) :
    ((processAttachment cfg msg st a).savedFiles.map Prod.fst).Nodup := by
  rcases processAttachment_savedFiles_cases cfg msg st a with heq | ⟨_, heq⟩
  · rw [heq]; exact h
  · rw [heq]; exact keys_dinsert_nodup _ _ _ h

theorem processMessage_keysNodup (cfg : SaveConfig) (st : SaveState) (msg : EmailMessage)
    (h : (st.savedFiles.map Prod.fst).Nodup) :
    ((processMessage cfg st msg).savedFiles.map Prod.fst).Nodup := by
  unfold processMessage
  split
  · exact h
  · exact foldl_invariant (processAttachment cfg msg)
      (fun s => (s.savedFiles.map Prod.fst).Nodup)
      (fun s b hs => processAttachment_keysNodup cfg msg s b hs)
      msg.rawAttachments st h

theorem finalFilename_all_not_mem (cfg : SaveConfig)
    (hmode : cfg.extractionMode ≠ str "latest") (disk : List Str) (msg : EmailMessage)
    (n e : Str) : finalFilename cfg disk msg n e ∉ disk := by
  unfold finalFilename
  rw [if_neg hmode]
  exact resolveCollision_not_mem disk _ 1 _ (Nat.lt_succ_self _)

theorem processAttachment_all_count (cfg : SaveConfig)
    (hmode : cfg.extractionMode ≠ str "latest") (hok : ∀ f, cfg.saveOk f = true)
    (msg : EmailMessage) (st : SaveState) (a : RawAttachment)
    (hsub : ∀ k ∈ st.savedFiles.map Prod.fst, k ∈ st.disk) :
    (∀ k ∈ (processAttachment cfg msg st a).savedFiles.map Prod.fst,
        k ∈ (processAttachment cfg msg st a).disk)
    ∧ (processAttachment cfg msg st a).savedFiles.length
        = st.savedFiles.length + (if (classifyAttachment a).isSome then 1 else 0) := by
  by_cases hcl : (classifyAttachment a).isSome = true
  · rw [processAttachment_of_classified cfg msg st a hcl,
      processEligible_all_eq cfg msg st a hmode, if_pos (hok _), hcl, if_pos rfl]
    have hF : finalFilename cfg st.disk msg a.fileName (splitext a.fileName).2 ∉ st.disk :=
      finalFilename_all_not_mem cfg hmode st.disk msg _ _
    have hFk : finalFilename cfg st.disk msg a.fileName (splitext a.fileName).2
        ∉ st.savedFiles.map Prod.fst := fun hmem => hF (hsub _ hmem)
    have hcF : st.disk.contains (finalFilename cfg st.disk msg a.fileName (splitext a.fileName).2)
        = false := by
      cases hb : st.disk.contains (finalFilename cfg st.disk msg a.fileName (splitext a.fileName).2)
      · rfl
      · exact absurd (List.mem_of_elem_eq_true hb) hF
    rw [dinsert_of_not_mem_keys st.savedFiles _ _ hFk]
    constructor
    · intro k hk
      simp only [hcF, Bool.false_eq_true, if_false]
      rw [List.map_append] at hk
      rcases List.mem_append.1 hk with hk | hk
      · exact List.mem_cons_of_mem _ (hsub k hk)
      · simp only [List.map_cons, List.map_nil, List.mem_singleton] at hk
        rw [hk]
        exact List.mem_cons_self _ _
    · simp
  · have hcl' : (classifyAttachment a).isSome = false := by simpa using hcl
    rw [processAttachment_of_not_classified cfg msg st a hcl']
    refine ⟨hsub, ?_⟩
    rw [hcl']
    simp

theorem foldAtt_all_count (cfg : SaveConfig)
    (hmode : cfg.extractionMode ≠ str "latest") (hok : ∀ f, cfg.saveOk f = true)
    (msg : EmailMessage) :
    ∀ (atts : List RawAttachment) (st : SaveState),
      (∀ k ∈ st.savedFiles.map Prod.fst, k ∈ st.disk) →
      (∀ k ∈ (atts.foldl (processAttachment cfg msg) st).savedFiles.map Prod.fst,
          k ∈ (atts.foldl (processAttachment cfg msg) st).disk)
      ∧ (atts.foldl (processAttachment cfg msg) st).savedFiles.length
          = st.savedFiles.length + atts.countP (fun a => (classifyAttachment a).isSome)
  | [], st, hsub => ⟨hsub, by simp⟩
  | a :: atts, st, hsub => by
    have hstep := processAttachment_all_count cfg hmode hok msg st a hsub
    have hrest := foldAtt_all_count cfg hmode hok msg atts
      (processAttachment cfg msg st a) hstep.1
    refine ⟨hrest.1, ?_⟩
    rw [List.foldl_cons, hrest.2, hstep.2, List.countP_cons]
    omega

theorem processMessage_all_count (cfg : SaveConfig)
    (hmode : cfg.extractionMode ≠ str "latest") (hok : ∀ f, cfg.saveOk f = true)
    (st : SaveState) (msg : EmailMessage)
    (hsub : ∀ k ∈ st.savedFiles.map Prod.fst, k ∈ st.disk) :
    (∀ k ∈ (processMessage cfg st msg).savedFiles.map Prod.fst,
        k ∈ (processMessage cfg st msg).disk)
    ∧ (processMessage cfg st msg).savedFiles.length
        = st.savedFiles.length + (if msg.attachments.isEmpty then 0
            else msg.rawAttachments.countP (fun a => (classifyAttachment a).isSome)) := by
  unfold processMessage
  by_cases hatt : msg.attachments.isEmpty = true
  · rw [if_pos hatt, if_pos hatt]
    exact ⟨hsub, by simp⟩
  · rw [if_neg hatt, if_neg hatt]
    have h := foldAtt_all_count cfg hmode hok msg msg.rawAttachments st hsub
    exact ⟨h.1, h.2⟩

theorem run_all_count (cfg : SaveConfig)
    (hmode : cfg.extractionMode ≠ str "latest") (hok : ∀ f, cfg.saveOk f = true) :
    ∀ (msgs : List EmailMessage) (st : SaveState),
      (∀ k ∈ st.savedFiles.map Prod.fst, k ∈ st.disk) →
      (∀ k ∈ (msgs.foldl (processMessage cfg) st).savedFiles.map Prod.fst,
          k ∈ (msgs.foldl (processMessage cfg) st).disk)
      ∧ (msgs.foldl (processMessage cfg) st).savedFiles.length
          = st.savedFiles.length + (msgs.map (fun m => if m.attachments.isEmpty then 0
              else m.rawAttachments.countP (fun a => (classifyAttachment a).isSome))).sum
  | [], st, hsub => ⟨hsub, by simp⟩
  | msg :: msgs, st, hsub => by
    have hstep := processMessage_all_count cfg hmode hok st msg hsub
    have hrest := run_all_count cfg hmode hok msgs (processMessage cfg st msg) hstep.1
    refine ⟨hrest.1, ?_⟩
    rw [List.foldl_cons, hrest.2, hstep.2, List.map_cons, List.sum_cons]
    omega

/-- C3, corrected: within a single run no two records of the returned mapping
share a final filename (it is a Python dict keyed by the final filename —
this holds in every mode), and in `all` mode with all saves succeeding the
mapping covers exactly the attachments that survive classification, one
record each (messages with an empty classified-attachment list are skipped).
In `latest` mode, however, distinct surviving attachments may compute the
same final filename and then collapse into a single record
(see the counterexample). -/
theorem C3_theorem (cfg : SaveConfig) (disk : List Str) (msgs : List EmailMessage)
    (hmode : cfg.extractionMode = str "all") (hok : ∀ f, cfg.saveOk f = true)
    (hmk : cfg.mkdirOk = true) (hsf : cfg.saveFolder ≠ []) :
    (∀ (cfg' : SaveConfig) (disk' : List Str) (msgs' : List EmailMessage),
        ((save_attachments cfg' disk' msgs').map Prod.fst).Nodup)
    ∧ (save_attachments cfg disk msgs).length
        = (msgs.map (fun m => if m.attachments.isEmpty then 0
            else m.rawAttachments.countP (fun a => (classifyAttachment a).isSome))).sum := by
  have hmode' : cfg.extractionMode ≠ str "latest" := by
    rw [hmode]; decide
  constructor
  · intro cfg' disk' msgs'
    unfold save_attachments
    by_cases he : cfg'.saveFolder.isEmpty = true
    · rw [if_pos he]; simp
    · rw [if_neg he]
      by_cases hmk' : (!cfg'.mkdirOk) = true
      · rw [if_pos hmk']; simp
      · rw [if_neg hmk']
        unfold saveRun
        exact foldl_invariant (processMessage cfg')
          (fun s => (s.savedFiles.map Prod.fst).Nodup)
          (fun s b hs => processMessage_keysNodup cfg' s b hs)
          _ ⟨[], [], disk'⟩ (by simp)
  · have he : ¬cfg.saveFolder.isEmpty = true := by
      cases hfold : cfg.saveFolder with
      | nil => exact absurd hfold hsf
      | cons c rest => simp [hfold]
    unfold save_attachments
    rw [if_neg he, if_neg (by rw [hmk]; decide)]
    unfold saveRun
    rw [if_neg hmode']
    have h := run_all_count cfg hmode' hok msgs ⟨[], [], disk⟩ (by simp)
    rw [h.2]
    simp

/-- Witness for C3: the single-attachment all-mode run yields one record with
distinct keys. -/
theorem C3_witness :
    ((save_attachments cfgAllOriginal [] [msgSingleA]).map Prod.fst).Nodup
    ∧ (save_attachments cfgAllOriginal [] [msgSingleA]).length
        = ([msgSingleA].map (fun m => if m.attachments.isEmpty then 0
            else m.rawAttachments.countP (fun a => (classifyAttachment a).isSome))).sum :=
  ⟨(C3_theorem cfgAllOriginal [] [msgSingleA] rfl (fun _ => rfl) rfl (by decide)).1
      cfgAllOriginal [] [msgSingleA],
    (C3_theorem cfgAllOriginal [] [msgSingleA] rfl (fun _ => rfl) rfl (by decide)).2⟩

/-! ### Claim C4 -/

theorem dtLe_iff (a b : PyDateTime) : dtLe a b = true ↔
    a.date < b.date ∨ (a.date = b.date ∧ a.tod ≤ b.tod) := by
  unfold dtLe
  by_cases h : a.date = b.date <;> simp [h]

theorem dtLe_refl (a : PyDateTime) : dtLe a a = true := by
  rw [dtLe_iff]; omega

theorem dtLe_trans (a b c : PyDateTime) (h1 : dtLe a b = true) (h2 : dtLe b c = true) :
    dtLe a c = true := by
  rw [dtLe_iff] at h1 h2 ⊢
  omega

theorem dtLe_total (a b : PyDateTime) : (dtLe a b || dtLe b a) = true := by
  rw [Bool.or_eq_true, dtLe_iff, dtLe_iff]
  omega

theorem sortByReceivedDesc_pairwise (msgs : List EmailMessage) :
    (sortByReceivedDesc msgs).Pairwise
      (fun x y => dtLe y.receivedTime x.receivedTime = true) := by
  unfold sortByReceivedDesc
  have h := List.sorted_mergeSort
    (fun (a b c : EmailMessage) (h1 : dtLe b.receivedTime a.receivedTime = true)
        (h2 : dtLe c.receivedTime b.receivedTime = true) => dtLe_trans _ _ _ h2 h1)
    (fun (a b : EmailMessage) => dtLe_total b.receivedTime a.receivedTime) msgs
  exact h.imp (fun hab => hab)

theorem foldAtt_latest (cfg : SaveConfig) (hmode : cfg.extractionMode = str "latest")
    (msg : EmailMessage) :
    ∀ (atts : List RawAttachment) (st : SaveState),
      ∃ new, (atts.foldl (processAttachment cfg msg) st).latestFiles = st.latestFiles ++ new
        ∧ (∀ kt ∈ new, kt.2 = msg.receivedTime
            ∧ kt.1 ∉ st.latestFiles.map Prod.fst
            ∧ ∃ a ∈ atts, (classifyAttachment a).isSome = true ∧ fileKeyOf a.fileName = kt.1)
        ∧ (new.map Prod.fst).Nodup
        ∧ (∀ a ∈ atts, (classifyAttachment a).isSome = true →
            fileKeyOf a.fileName ∈ st.latestFiles.map Prod.fst ++ new.map Prod.fst)
  | [], st => ⟨[], by simp, by simp, by simp, by simp⟩
  | a :: atts, st => by
    by_cases hcl : (classifyAttachment a).isSome = true
    · by_cases hk : fileKeyOf a.fileName ∈ st.latestFiles.map Prod.fst
      · have hskip : processAttachment cfg msg st a = st := by
          rw [processAttachment_of_classified cfg msg st a hcl]
          exact processEligible_latest_skip cfg msg st a hmode hk
        rcases foldAtt_latest cfg hmode msg atts st with ⟨new, h1, h2, h3, h4⟩
        refine ⟨new, ?_, ?_, h3, ?_⟩
        · rw [List.foldl_cons, hskip]; exact h1
        · intro kt hkt
          rcases h2 kt hkt with ⟨ht, hnotin, a', ha', hcl', hkey⟩
          exact ⟨ht, hnotin, a', List.mem_cons_of_mem _ ha', hcl', hkey⟩
        · intro a' ha' hcl'
          rcases List.mem_cons.1 ha' with heq | ha'
          · subst heq
            exact List.mem_append.2 (Or.inl hk)
          · exact h4 a' ha' hcl'
      · have hlat1 : (processAttachment cfg msg st a).latestFiles
            = st.latestFiles ++ [(fileKeyOf a.fileName, msg.receivedTime)] := by
          rw [processAttachment_of_classified cfg msg st a hcl]
          exact processEligible_latest_claim_latestFiles cfg msg st a hmode hk
        rcases foldAtt_latest cfg hmode msg atts (processAttachment cfg msg st a) with
          ⟨new1, h1, h2, h3, h4⟩
        refine ⟨(fileKeyOf a.fileName, msg.receivedTime) :: new1, ?_, ?_, ?_, ?_⟩
        · rw [List.foldl_cons, h1, hlat1, List.append_assoc]
          rfl
        · intro kt hkt
          rcases List.mem_cons.1 hkt with heq | hkt
          · subst heq
            exact ⟨rfl, hk, a, List.mem_cons_self _ _, hcl, rfl⟩
          · rcases h2 kt hkt with ⟨ht, hnotin1, a', ha', hcl', hkey⟩
            have hnst : kt.1 ∉ st.latestFiles.map Prod.fst := by
              intro hmem
              exact hnotin1 (by
                rw [hlat1, List.map_append]
                exact List.mem_append.2 (Or.inl hmem))
            exact ⟨ht, hnst, a', List.mem_cons_of_mem _ ha', hcl', hkey⟩
        · refine List.nodup_cons.2 ⟨?_, h3⟩
          intro hmem
          rcases List.mem_map.1 hmem with ⟨kt, hkt, hfst⟩
          rcases h2 kt hkt with ⟨_, hnotin1, _⟩
          apply hnotin1
          rw [hlat1, List.map_append]
          refine List.mem_append.2 (Or.inr ?_)
          simp only [List.map_cons, List.map_nil, List.mem_singleton]
          exact hfst
        · intro a' ha' hcl'
          rcases List.mem_cons.1 ha' with heq | ha'
          · subst heq
            refine List.mem_append.2 (Or.inr ?_)
            simp
          · have hmem := h4 a' ha' hcl'
            rw [hlat1, List.map_append] at hmem
            rcases List.mem_append.1 hmem with hmem' | hmem'
            · rcases List.mem_append.1 hmem' with h'' | h''
              · exact List.mem_append.2 (Or.inl h'')
              · refine List.mem_append.2 (Or.inr ?_)
                simp only [List.map_cons, List.map_nil, List.mem_singleton] at h''
                simp [h'']
            · refine List.mem_append.2 (Or.inr ?_)
              simp only [List.map_cons, List.mem_cons]
              exact Or.inr hmem'
    · have hskip : processAttachment cfg msg st a = st :=
        processAttachment_of_not_classified cfg msg st a (by simpa using hcl)
      rcases foldAtt_latest cfg hmode msg atts st with ⟨new, h1, h2, h3, h4⟩
      refine ⟨new, ?_, ?_, h3, ?_⟩
      · rw [List.foldl_cons, hskip]; exact h1
      · intro kt hkt
        rcases h2 kt hkt with ⟨ht, hnotin, a', ha', hcl', hkey⟩
        exact ⟨ht, hnotin, a', List.mem_cons_of_mem _ ha', hcl', hkey⟩
      · intro a' ha' hcl'
        rcases List.mem_cons.1 ha' with heq | ha'
        · subst heq
          exact absurd hcl' hcl
        · exact h4 a' ha' hcl'

theorem processMessage_latest (cfg : SaveConfig) (hmode : cfg.extractionMode = str "latest")
    (st : SaveState) (msg : EmailMessage) :
    ∃ new, (processMessage cfg st msg).latestFiles = st.latestFiles ++ new
      ∧ (∀ kt ∈ new, msg.attachments.isEmpty = false ∧ kt.2 = msg.receivedTime
          ∧ kt.1 ∉ st.latestFiles.map Prod.fst ∧ hasEligibleKey msg kt.1)
      ∧ (new.map Prod.fst).Nodup
      ∧ (msg.attachments.isEmpty = false → ∀ k, hasEligibleKey msg k →
          k ∈ st.latestFiles.map Prod.fst ++ new.map Prod.fst) := by
  unfold processMessage
  by_cases hatt : msg.attachments.isEmpty = true
  · rw [if_pos hatt]
    refine ⟨[], by simp, by simp, by simp, ?_⟩
    intro hme
    rw [hatt] at hme
    exact Bool.noConfusion hme
  · rw [if_neg hatt]
    have hatt' : msg.attachments.isEmpty = false := by
      cases hb : msg.attachments.isEmpty
      · rfl
      · exact absurd hb hatt
    rcases foldAtt_latest cfg hmode msg msg.rawAttachments st with ⟨new, h1, h2, h3, h4⟩
    refine ⟨new, h1, ?_, h3, ?_⟩
    · intro kt hkt
      rcases h2 kt hkt with ⟨ht, hn, a, ha, hcl, hkey⟩
      exact ⟨hatt', ht, hn, a, ha, hcl, hkey⟩
    · intro _ k hk
      rcases hk with ⟨a, ha, hcl, hkey⟩
      have := h4 a ha hcl
      rw [hkey] at this
      exact this

theorem foldMsgs_latest (cfg : SaveConfig) (hmode : cfg.extractionMode = str "latest") :
    ∀ (msgs : List EmailMessage) (st : SaveState),
      msgs.Pairwise (fun x y => dtLe y.receivedTime x.receivedTime = true) →
      ∃ new, (msgs.foldl (processMessage cfg) st).latestFiles = st.latestFiles ++ new
        ∧ (new.map Prod.fst).Nodup
        ∧ (∀ kt ∈ new, kt.1 ∉ st.latestFiles.map Prod.fst
            ∧ (∃ m ∈ msgs, m.attachments.isEmpty = false ∧ hasEligibleKey m kt.1
                ∧ kt.2 = m.receivedTime)
            ∧ (∀ m ∈ msgs, m.attachments.isEmpty = false → hasEligibleKey m kt.1 →
                dtLe m.receivedTime kt.2 = true))
        ∧ (∀ m ∈ msgs, m.attachments.isEmpty = false → ∀ k, hasEligibleKey m k →
            k ∈ st.latestFiles.map Prod.fst ++ new.map Prod.fst)
  | [], st, _ => ⟨[], by simp, by simp, by simp, by simp⟩
  | m0 :: msgs, st, hpw => by
    rcases List.pairwise_cons.1 hpw with ⟨hhead, htail⟩
    rcases processMessage_latest cfg hmode st m0 with ⟨new0, h01, h02, h03, h04⟩
    rcases foldMsgs_latest cfg hmode msgs (processMessage cfg st m0) htail with
      ⟨new1, h11, h12, h13, h14⟩
    refine ⟨new0 ++ new1, ?_, ?_, ?_, ?_⟩
    · rw [List.foldl_cons, h11, h01, List.append_assoc]
    · rw [List.map_append]
      refine List.Nodup.append h03 h12 ?_
      intro k hk0 hk1
      rcases List.mem_map.1 hk1 with ⟨kt, hkt, hfst⟩
      rcases h13 kt hkt with ⟨hn1, _, _⟩
      apply hn1
      rw [h01, List.map_append]
      refine List.mem_append.2 (Or.inr ?_)
      rw [hfst]
      exact hk0
    · intro kt hkt
      rcases List.mem_append.1 hkt with hkt0 | hkt1
      · rcases h02 kt hkt0 with ⟨hme0, ht, hn, hkey⟩
        refine ⟨hn, ⟨m0, List.mem_cons_self _ _, hme0, hkey, ht⟩, ?_⟩
        intro m hm hme hkm
        rcases List.mem_cons.1 hm with heq | hm
        · subst heq
          rw [ht]
          exact dtLe_refl _
        · rw [ht]
          exact hhead m hm
      · rcases h13 kt hkt1 with ⟨hn1, hex, hbound⟩
        have hnst : kt.1 ∉ st.latestFiles.map Prod.fst := by
          intro hmem
          apply hn1
          rw [h01, List.map_append]
          exact List.mem_append.2 (Or.inl hmem)
        refine ⟨hnst, ?_, ?_⟩
        · rcases hex with ⟨m, hm, hme, hk, ht⟩
          exact ⟨m, List.mem_cons_of_mem _ hm, hme, hk, ht⟩
        · intro m hm hme hkm
          rcases List.mem_cons.1 hm with heq | hm
          · subst heq
            exfalso
            apply hn1
            rw [h01, List.map_append]
            exact h04 hme kt.1 hkm
          · exact hbound m hm hme hkm
    · intro m hm hme k hk
      rcases List.mem_cons.1 hm with heq | hm
      · subst heq
        have hmem := h04 hme k hk
        rcases List.mem_append.1 hmem with h' | h'
        · exact List.mem_append.2 (Or.inl h')
        · refine List.mem_append.2 (Or.inr ?_)
          rw [List.map_append]
          exact List.mem_append.2 (Or.inl h')
      · have hmem := h14 m hm hme k hk
        rw [h01, List.map_append, List.append_assoc] at hmem
        rw [List.map_append]
        exact hmem

/-- C4: in `latest` mode, at most one attachment is kept per lower-cased
`(base name + extension)` key — the claimed-keys table ends with no duplicate
key — and the kept attachment comes from the message with the latest received
time among the (non-skipped) messages containing an attachment with that key;
an eligible attachment whose key is already claimed leaves the run state
completely unchanged (lines 524-526 and 606-616). -/
theorem C4_theorem (cfg : SaveConfig) (disk : List Str) (msgs : List EmailMessage)
    (hmode : cfg.extractionMode = str "latest") :
    ((saveRun cfg disk msgs).latestFiles.map Prod.fst).Nodup
    ∧ (∀ kt ∈ (saveRun cfg disk msgs).latestFiles,
        (∃ m ∈ msgs, m.attachments.isEmpty = false ∧ hasEligibleKey m kt.1
            ∧ kt.2 = m.receivedTime)
        ∧ (∀ m ∈ msgs, m.attachments.isEmpty = false → hasEligibleKey m kt.1 →
            dtLe m.receivedTime kt.2 = true))
    ∧ (∀ (msg : EmailMessage) (st : SaveState) (a : RawAttachment),
        (classifyAttachment a).isSome = true →
        fileKeyOf a.fileName ∈ st.latestFiles.map Prod.fst →
        processAttachment cfg msg st a = st) := by
  have hrun : saveRun cfg disk msgs
      = (sortByReceivedDesc msgs).foldl (processMessage cfg) ⟨[], [], disk⟩ := by
    unfold saveRun
    rw [if_pos hmode]
  rcases foldMsgs_latest cfg hmode (sortByReceivedDesc msgs) ⟨[], [], disk⟩
    (sortByReceivedDesc_pairwise msgs) with ⟨new, h1, h2, h3, h4⟩
  have hmem : ∀ m : EmailMessage, m ∈ sortByReceivedDesc msgs ↔ m ∈ msgs := by
    intro m
    unfold sortByReceivedDesc
    exact List.mem_mergeSort
  refine ⟨?_, ?_, ?_⟩
  · rw [hrun, h1]
    simpa using h2
  · intro kt hkt
    rw [hrun, h1] at hkt
    simp only [List.nil_append] at hkt
    rcases h3 kt hkt with ⟨_, hex, hbound⟩
    constructor
    · rcases hex with ⟨m, hm, hme, hk, ht⟩
      exact ⟨m, (hmem m).1 hm, hme, hk, ht⟩
    · intro m hm hme hk
      exact hbound m ((hmem m).2 hm) hme hk
  · intro msg st a hcl hk
    rw [processAttachment_of_classified cfg msg st a hcl]
    exact processEligible_latest_skip cfg msg st a hmode hk

/-- Witness for C4: the latest-mode run over one message with two distinct
keys claims both, each key exactly once and with that message's received
time. -/
theorem C4_witness :
    ((saveRun cfgLatestDate [] [msgTwoDocs]).latestFiles.map Prod.fst).Nodup
    ∧ ∀ kt ∈ (saveRun cfgLatestDate [] [msgTwoDocs]).latestFiles,
        ∃ m ∈ [msgTwoDocs], m.attachments.isEmpty = false ∧ hasEligibleKey m kt.1
          ∧ kt.2 = m.receivedTime :=
  ⟨(C4_theorem cfgLatestDate [] [msgTwoDocs] rfl).1,
    fun kt hkt => ((C4_theorem cfgLatestDate [] [msgTwoDocs] rfl).2.1 kt hkt).1⟩

/-! ### Claim C9 (amended theorem) -/

theorem foldl_congr {α β : Type} (f g : α → β → α) :
    ∀ (l : List β) (s : α), (∀ b ∈ l, ∀ a, f a b = g a b) → l.foldl f s = l.foldl g s
  | [], _, _ => rfl
  | b :: bs, s, h => by
    rw [List.foldl_cons, List.foldl_cons, h b (List.mem_cons_self _ _) s]
    exact foldl_congr f g bs _ (fun b' hb' a => h b' (List.mem_cons_of_mem _ hb') a)

theorem foldl_const {α β : Type} (f : α → β → α) :
    ∀ (l : List β) (s : α), (∀ b ∈ l, ∀ a, f a b = a) → l.foldl f s = s
  | [], _, _ => rfl
  | b :: bs, s, h => by
    rw [List.foldl_cons, h b (List.mem_cons_self _ _) s]
    exact foldl_const f bs s (fun b' hb' a => h b' (List.mem_cons_of_mem _ hb') a)

theorem isEmpty_false_of_ne_nil {α : Type} {l : List α} (h : l ≠ []) : l.isEmpty = false := by
  cases l with
  | nil => exact absurd rfl h
  | cons a as => rfl

theorem pstrip_eq_nil_iff (s : Str) : pstrip s = [] ↔ ∀ c ∈ s, isPyWS c = true := by
  unfold pstrip
  rw [List.reverse_eq_nil_iff, List.dropWhile_eq_nil_iff]
  constructor
  · intro h c hc
    have hsplit := List.takeWhile_append_dropWhile (p := isPyWS) (l := s)
    rw [← hsplit] at hc
    rcases List.mem_append.1 hc with hc | hc
    · exact List.mem_takeWhile_imp hc
    · exact h c (List.mem_reverse.2 hc)
  · intro h c hc
    exact h c (List.dropWhile_subset isPyWS (List.mem_reverse.1 hc))

theorem splitOnChar_ne_nil (c : Char) : ∀ s : Str, splitOnChar c s ≠ []
  | [] => by simp [splitOnChar]
  | x :: xs => by
    rw [splitOnChar]
    by_cases hx : x = c
    · rw [if_pos hx]; simp
    · rw [if_neg hx]
      cases hr : splitOnChar c xs with
      | nil => simp
      | cons h t => simp

theorem splitOnChar_mem_subset (c : Char) :
    ∀ (s : Str) (l : Str), l ∈ splitOnChar c s → ∀ x ∈ l, x ∈ s
  | [], l, hl, x, hx => by
    simp [splitOnChar] at hl
    rw [hl] at hx
    simp at hx
  | y :: ys, l, hl, x, hx => by
    rw [splitOnChar] at hl
    by_cases hy : y = c
    · rw [if_pos hy] at hl
      rcases List.mem_cons.1 hl with heq | hl
      · rw [heq] at hx; simp at hx
      · exact List.mem_cons_of_mem _ (splitOnChar_mem_subset c ys l hl x hx)
    · rw [if_neg hy] at hl
      cases hr : splitOnChar c ys with
      | nil => exact absurd hr (splitOnChar_ne_nil c ys)
      | cons h t =>
        rw [hr] at hl
        rcases List.mem_cons.1 hl with heq | hl
        · rw [heq] at hx
          rcases List.mem_cons.1 hx with hxy | hxh
          · rw [hxy]; exact List.mem_cons_self _ _
          · refine List.mem_cons_of_mem _ ?_
            exact splitOnChar_mem_subset c ys h (by rw [hr]; exact List.mem_cons_self _ _) x hxh
        · refine List.mem_cons_of_mem _ ?_
          exact splitOnChar_mem_subset c ys l (by rw [hr]; exact List.mem_cons_of_mem _ hl) x hx

/-- C9, corrected: the two provider parsers agree on every configuration
text whose meaningful lines have patterns unchanged by lower-casing and
non-empty trimmed patterns and labels; in general they differ, because
`_parse_provider_settings` lower-cases the pattern and drops empty
patterns/labels while `_parse_providers_config` does not. -/
theorem C9_theorem (t : Str) (h : ∀ l ∈ splitOnChar '\n' t, goodLine l) :
    parseProviderSettings t = parseProvidersConfigEP t := by
  have hstep : ∀ l ∈ splitOnChar '\n' t, ∀ providers : List (Str × Str),
      (fun providers line0 =>
        let line := pstrip line0
        if line.isEmpty || (str "#").isPrefixOf line then providers
        else if pyIn (str "=") line then
          let kv := splitFirst '=' line
          let email := plower (pstrip kv.1)
          let provider := pstrip kv.2
          if !email.isEmpty && !provider.isEmpty then dinsert providers email provider
          else providers
        else providers) providers l
      = (fun providers line0 =>
        let line := pstrip line0
        if !line.isEmpty && !(str "#").isPrefixOf line then
          if pyIn (str "=") line then
            let kv := splitFirst '=' line
            dinsert providers (pstrip kv.1) (pstrip kv.2)
          else providers
        else providers) providers l := by
    intro l hl providers
    dsimp only
    by_cases hblank : (pstrip l).isEmpty = true
    · simp [hblank]
    · have hblankb : (pstrip l).isEmpty = false := Bool.eq_false_iff.2 hblank
      by_cases hcomment : (str "#").isPrefixOf (pstrip l) = true
      · simp [hblankb, hcomment]
      · have hcommentb : (str "#").isPrefixOf (pstrip l) = false := Bool.eq_false_iff.2 hcomment
        by_cases heq : pyIn (str "=") (pstrip l) = true
        · have hnil : pstrip l ≠ [] := fun hn => hblank (by rw [hn]; rfl)
          rcases h l hl hnil hcomment heq with ⟨hlow, hk, hv⟩
          have hkb : (pstrip (splitFirst '=' (pstrip l)).1).isEmpty = false :=
            isEmpty_false_of_ne_nil hk
          have hvb : (pstrip (splitFirst '=' (pstrip l)).2).isEmpty = false :=
            isEmpty_false_of_ne_nil hv
          simp [hblankb, hcommentb, heq, hlow, hkb, hvb]
        · have heqb : pyIn (str "=") (pstrip l) = false := Bool.eq_false_iff.2 heq
          simp [hblankb, hcommentb, heqb]
  by_cases hbl : (t.isEmpty || (pstrip t).isEmpty) = true
  · unfold parseProviderSettings
    rw [if_pos hbl]
    rcases Bool.or_eq_true_iff.1 hbl with hte | hts
    · have ht : t = [] := by
        cases t with
        | nil => rfl
        | cons c cs => exact absurd hte (by simp)
      rw [ht]
      rfl
    · have hts' : pstrip t = [] := by
        cases hb : pstrip t with
        | nil => rfl
        | cons c cs => rw [hb] at hts; exact absurd hts (by simp)
      have hall : ∀ c ∈ t, isPyWS c = true := (pstrip_eq_nil_iff t).1 hts'
      unfold parseProvidersConfigEP
      refine (foldl_const _ _ _ ?_).symm
      intro l hl providers
      have hblank : pstrip l = [] := by
        rw [pstrip_eq_nil_iff]
        intro c hc
        exact hall c (splitOnChar_mem_subset '\n' t l hl c hc)
      dsimp only
      rw [if_neg (by rw [hblank]; simp)]
  · unfold parseProviderSettings parseProvidersConfigEP
    rw [if_neg hbl]
    exact foldl_congr _ _ (splitOnChar '\n' t) [] hstep

/-- Witness for C9: a configuration with a lower-case rule, a comment and a
junk line parses identically through both implementations. -/
theorem C9_witness :
    parseProviderSettings (str "acme.com = Acme\n# comment\nnoequals")
      = parseProvidersConfigEP (str "acme.com = Acme\n# comment\nnoequals") :=
  C9_theorem (str "acme.com = Acme\n# comment\nnoequals") (by decide)

end EmailExtractor
